import Mathlib

/-!
# Verification of the N-Queens visualizer search core

Shallow embedding of the backtracking search engine of the N-Queens
visualizer repository and proofs of the specified properties.

The embedded code:
* `solveNQueensArray`, `solveNQueensBitmask` — the two trace-producing
  generators of `src/App.jsx` (array scan and 32-bit bitmask encodings);
* `countSolutionsArray`, `countSolutionsBitmask` — the two synchronous
  counters of `src/App.jsx`;
* `computeTraceSteps` — the eager tracer of the second visualizer component
  (attempt/placed/backtrack/solution steps).

JavaScript generators are embedded as functions producing the full event
list eagerly (the generator suspends exactly at each emission point, so the
produced sequence is the same).  The mutable `board` array — always a
contiguous prefix of decided entries followed by unset slots — is carried
as the list `qs` of decided entries; each externalized snapshot
(`board.slice()`) is reconstructed by `snapshot`.  Recursion on the row is
driven by an explicit fuel argument (`n + 1` at the top call, one unit per
row), and the `while (available)` loop by a fuel of `32` (a 32-bit mask has
at most 32 set bits); both bounds are never exhausted on any reachable
state.  The bitmask code's JavaScript numbers are 32-bit signed integers
under `&`, `|`, `^`, `~`, `<<`, `>>`; they are embedded as their unsigned
residues mod `2^32` (`Nat`), with two's-complement negation `negU32`,
complement `jsNot`, and sign-propagating shift `sar1` spelled out.
-/

namespace NQueensViz

/-- Action tag of one yielded step of the `App.jsx` generators. -/
inductive JsAction where
  | place
  | remove
  | solution
deriving DecidableEq

/-- One step yielded by the `App.jsx` generators: the action, the acted-on
coordinate (absent on `solution` steps, which yield only the board), and the
defensive copy `board.slice()` taken at the instant of emission. -/
structure JsEvent where
  action : JsAction
  row : Option Nat
  col : Option Nat
  board : List (Option Nat)
deriving DecidableEq

/-- The conflict scan of `solveNQueensArray` / `countSolutionsArray`
(`board[r] === col || Math.abs(board[r] - col) === row - r` for
`r = 0 .. row-1`) and, with the coordinate roles swapped, the `isSafe`
scan of `computeTraceSteps`.  `dist` is the distance from the head entry
to the candidate (called with `dist = qs.length`, i.e. the current row). -/
def scanConflict : List Nat → Nat → Nat → Bool
  | [], _, _ => false
  | q :: rest, dist, c =>
    (q == c || Int.natAbs ((q : Int) - (c : Int)) == dist) || scanConflict rest (dist - 1) c

/-- The snapshot `board.slice()` of the generators' mutable board when the
entries `0 .. qs.length - 1` are decided and the rest are `undefined`. -/
def snapshot (n : Nat) (qs : List Nat) : List (Option Nat) :=
  qs.map some ++ List.replicate (n - qs.length) none

/-- Concatenation of the event lists produced by the iterations of a
`for`/`while` loop. -/
def concatMap (f : α → List β) : List α → List β
  | [] => []
  | x :: xs => f x ++ concatMap f xs

/-- Sum of the counter increments produced by the iterations of a loop. -/
def sumOver (f : α → Nat) : List α → Nat
  | [] => 0
  | x :: xs => f x + sumOver f xs

/-- The recursive `backtrack(row)` of `solveNQueensArray` in `src/App.jsx`:
at `row = qs.length`, yield a solution snapshot if `row === n`, otherwise
try each `col` in `0 .. n-1`; on a conflict-free column, set it, yield
`place`, recurse, yield `remove` (the snapshot still contains the queen:
`board[row] = undefined` runs after the yield), and unset it. -/
def backtrackArray (n : Nat) : Nat → List Nat → List JsEvent
  | 0, _ => []
  | fuel + 1, qs =>
    if qs.length = n then
      [⟨JsAction.solution, none, none, snapshot n qs⟩]
    else
      concatMap (fun col =>
        if scanConflict qs qs.length col then []
        else
          ⟨JsAction.place, some qs.length, some col, snapshot n (qs ++ [col])⟩ ::
            (backtrackArray n fuel (qs ++ [col]) ++
              [⟨JsAction.remove, some qs.length, some col, snapshot n (qs ++ [col])⟩]))
        (List.range n)

/-- The full event sequence of the generator `solveNQueensArray(n)`. -/
def solveNQueensArray (n : Nat) : List JsEvent :=
  backtrackArray n (n + 1) []

/-- The recursive `backtrack(row)` of `countSolutionsArray` in
`src/App.jsx`: the same traversal with all emission elided, incrementing a
counter at `row === n`. -/
def countBacktrackArray (n : Nat) : Nat → List Nat → Nat
  | 0, _ => 0
  | fuel + 1, qs =>
    if qs.length = n then 1
    else
      sumOver (fun col =>
        if scanConflict qs qs.length col then 0
        else countBacktrackArray n fuel (qs ++ [col]))
        (List.range n)

/-- `countSolutionsArray(n)` of `src/App.jsx`. -/
def countSolutionsArray (n : Nat) : Nat :=
  countBacktrackArray n (n + 1) []

/-- `2^32`: the modulus of JavaScript's 32-bit bitwise arithmetic. -/
def U32 : Nat := 2 ^ 32

/-- JavaScript `~x` on a 32-bit value held as its unsigned residue. -/
def jsNot (u : Nat) : Nat := u ^^^ (U32 - 1)

/-- JavaScript unary minus on a 32-bit value (two's complement), as the
unsigned residue: `ToUint32(-x) = (2^32 - x) % 2^32`. -/
def negU32 (u : Nat) : Nat := (U32 - u) % U32

/-- `available & -available` — the lowest set bit of `available`. -/
def lowBit (u : Nat) : Nat := u &&& negU32 u

/-- JavaScript sign-propagating `x >> 1` on a 32-bit value held as its
unsigned residue: plain division for non-negative values, with the sign
bit re-inserted for negative ones. -/
def sar1 (u : Nat) : Nat := if u < 2 ^ 31 then u / 2 else u / 2 + 2 ^ 31

/-- The row mask `(1 << n) - 1` of the bitmask routines, as computed by
JavaScript: the shift count is reduced mod 32, the shift produces a signed
32-bit value, and the subtraction re-enters 32-bit range at the following
bitwise operation.  For `n ≤ 31` this is the exact mask `2^n - 1`; at
`n = 32` it collapses to `0`. -/
def jsMask (n : Nat) : Nat := ((1 <<< (n % 32)) % U32 + (U32 - 1)) % U32

/-- The `while (available)` loop of `solveNQueensBitmask`: extract the
lowest set bit, place the queen at `col = Math.log2(pick)`, yield `place`,
recurse via `rec` with the updated masks (`columns | pick`,
`(diag1 | pick) << 1`, `(diag2 | pick) >> 1`), yield `remove`, clear the
bit and continue. -/
def bmLoop (rec : List Nat → Nat → Nat → Nat → List JsEvent) (n : Nat)
    (qs : List Nat) (cols d1 d2 : Nat) : Nat → Nat → List JsEvent
  | 0, _ => []
  | lf + 1, available =>
    if available = 0 then []
    else
      let pick := lowBit available
      let col := Nat.log2 pick
      ⟨JsAction.place, some qs.length, some col, snapshot n (qs ++ [col])⟩ ::
        (rec (qs ++ [col]) (cols ||| pick) (((d1 ||| pick) <<< 1) % U32) (sar1 (d2 ||| pick)) ++
          (⟨JsAction.remove, some qs.length, some col, snapshot n (qs ++ [col])⟩ ::
            bmLoop rec n qs cols d1 d2 lf (available &&& (available - 1))))

/-- The recursive `backtrack(row, columns, diag1, diag2)` of
`solveNQueensBitmask` in `src/App.jsx`. -/
def btBitmask (n : Nat) : Nat → List Nat → Nat → Nat → Nat → List JsEvent
  | 0, _, _, _, _ => []
  | fuel + 1, qs, cols, d1, d2 =>
    if qs.length = n then
      [⟨JsAction.solution, none, none, snapshot n qs⟩]
    else
      bmLoop (btBitmask n fuel) n qs cols d1 d2 32 (jsMask n &&& jsNot (cols ||| d1 ||| d2))

/-- The full event sequence of the generator `solveNQueensBitmask(n)`. -/
def solveNQueensBitmask (n : Nat) : List JsEvent :=
  btBitmask n (n + 1) [] 0 0 0

/-- The `while (available)` loop of `countSolutionsBitmask`: clear the
lowest set bit and recurse with the updated masks, accumulating counts. -/
def cbLoop (rec : Nat → Nat → Nat → Nat → Nat) (row cols d1 d2 : Nat) :
    Nat → Nat → Nat
  | 0, _ => 0
  | lf + 1, available =>
    if available = 0 then 0
    else
      let pick := lowBit available
      rec (row + 1) (cols ||| pick) (((d1 ||| pick) <<< 1) % U32) (sar1 (d2 ||| pick)) +
        cbLoop rec row cols d1 d2 lf (available &&& (available - 1))

/-- The recursive `backtrack(row, columns, diag1, diag2)` of
`countSolutionsBitmask` in `src/App.jsx`. -/
def cbBitmask (n : Nat) : Nat → Nat → Nat → Nat → Nat → Nat
  | 0, _, _, _, _ => 0
  | fuel + 1, row, cols, d1, d2 =>
    if row = n then 1
    else
      cbLoop (cbBitmask n fuel) row cols d1 d2 32 (jsMask n &&& jsNot (cols ||| d1 ||| d2))

/-- `countSolutionsBitmask(n)` of `src/App.jsx`. -/
def countSolutionsBitmask (n : Nat) : Nat :=
  cbBitmask n (n + 1) 0 0 0 0

/-- Status tag of one step recorded by `computeTraceSteps`. -/
inductive TStatus where
  | attempt
  | placed
  | backtrack
  | solution
deriving DecidableEq

/-- One step recorded by `computeTraceSteps`: the board copy `[...board]`,
the candidate cell `{ col, row }` (absent on `solution` steps) and the
status. -/
structure TStep where
  board : List Int
  candidate : Option (Nat × Nat)
  status : TStatus
deriving DecidableEq

/-- The snapshot `[...board]` of `computeTraceSteps`' board
(`Array(n).fill(-1)`, indexed by column and holding row numbers) when the
columns `0 .. qs.length - 1` are decided and the rest hold `-1`. -/
def tSnapshot (n : Nat) (qs : List Nat) : List Int :=
  qs.map Int.ofNat ++ List.replicate (n - qs.length) (-1)

/-- The recursive `solve(col)` of `computeTraceSteps`: at `col = qs.length`,
record a solution if `col === n`; otherwise for each `row` record an
`attempt`, and when `isSafe(col, row)` holds, place the queen, record
`placed`, recurse, remove the queen and record `backtrack` (the removal
happens before the push, so the backtrack snapshot no longer contains the
queen). -/
def ctSolve (n : Nat) : Nat → List Nat → List TStep
  | 0, _ => []
  | fuel + 1, qs =>
    if qs.length = n then
      [⟨tSnapshot n qs, none, TStatus.solution⟩]
    else
      concatMap (fun row =>
        ⟨tSnapshot n qs, some (qs.length, row), TStatus.attempt⟩ ::
          (if scanConflict qs qs.length row then []
           else
             ⟨tSnapshot n (qs ++ [row]), some (qs.length, row), TStatus.placed⟩ ::
               (ctSolve n fuel (qs ++ [row]) ++
                 [⟨tSnapshot n qs, some (qs.length, row), TStatus.backtrack⟩])))
        (List.range n)

/-- `computeTraceSteps(n)` of the second visualizer component. -/
def computeTraceSteps (n : Nat) : List TStep :=
  ctSolve n (n + 1) []

/-- Number of `solution` events in a trace of the `App.jsx` generators. -/
def countSolutionEvents (tr : List JsEvent) : Nat :=
  tr.countP (fun e => e.action == JsAction.solution)

/-- The boards carried by the `solution` events of a generator trace, in
trace order. -/
def solBoards (tr : List JsEvent) : List (List (Option Nat)) :=
  (tr.filter (fun e => e.action == JsAction.solution)).map (fun e => e.board)

/-- The boards carried by the `solution` steps of `computeTraceSteps`, in
trace order. -/
def solBoardsT (tr : List TStep) : List (List Int) :=
  (tr.filter (fun s => s.status == TStatus.solution)).map (fun s => s.board)

/-- A generator board snapshot read as its sequence of decided column
indices (the set entries, in row order). -/
def colSeq (b : List (Option Nat)) : List Nat :=
  b.filterMap id

/-- The claim that a board snapshot is a valid full solution: the decided
entries form a permutation of `0 .. n-1` and no two of them lie on a
common diagonal (`|board[i] - board[j]| ≠ |i - j|` for `i ≠ j`). -/
def ValidSolutionBoard (n : Nat) (b : List (Option Nat)) : Prop :=
  ∃ qs : List Nat, b = qs.map some ∧ qs.Perm (List.range n) ∧
    ∀ i j (hi : i < qs.length) (hj : j < qs.length), i ≠ j →
      Int.natAbs ((qs.get ⟨i, hi⟩ : Int) - (qs.get ⟨j, hj⟩ : Int)) ≠
        Int.natAbs ((i : Int) - (j : Int))

/-- `ValidSolutionBoard` for the `-1`-padded boards of
`computeTraceSteps` (indexed by column, holding row numbers). -/
def ValidSolutionBoardT (n : Nat) (b : List Int) : Prop :=
  ∃ qs : List Nat, b = qs.map Int.ofNat ∧ qs.Perm (List.range n) ∧
    ∀ i j (hi : i < qs.length) (hj : j < qs.length), i ≠ j →
      Int.natAbs ((qs.get ⟨i, hi⟩ : Int) - (qs.get ⟨j, hj⟩ : Int)) ≠
        Int.natAbs ((i : Int) - (j : Int))

/-- No two decided entries of a board snapshot attack each other: distinct
rows never share a column, and never lie on a common diagonal. -/
def BoardOK (b : List (Option Nat)) : Prop :=
  ∀ i j ci cj, i ≠ j → b.getD i none = some ci → b.getD j none = some cj →
    ci ≠ cj ∧ Int.natAbs ((ci : Int) - (cj : Int)) ≠ Int.natAbs ((i : Int) - (j : Int))

/-- `BoardOK` for the `-1`-padded boards of `computeTraceSteps`: the set
entries are those different from `-1`. -/
def BoardOKT (b : List Int) : Prop :=
  ∀ i j, i ≠ j → i < b.length → j < b.length →
    b.getD i (-1) ≠ -1 → b.getD j (-1) ≠ -1 →
    b.getD i (-1) ≠ b.getD j (-1) ∧
      Int.natAbs (b.getD i (-1) - b.getD j (-1)) ≠ Int.natAbs ((i : Int) - (j : Int))

/-- Number of events of a generator trace with a given action at a given
coordinate. -/
def countAt (a : JsAction) (r c : Nat) (tr : List JsEvent) : Nat :=
  tr.countP (fun e => e.action == a && (e.row == some r && e.col == some c))

/-- Number of events of a generator trace with a given action at a given
depth (row). -/
def countAtRow (a : JsAction) (r : Nat) (tr : List JsEvent) : Nat :=
  tr.countP (fun e => e.action == a && e.row == some r)

/-- Number of `computeTraceSteps` steps with a given status at a given
candidate cell. -/
def countAtT (st : TStatus) (cr : Nat × Nat) (tr : List TStep) : Nat :=
  tr.countP (fun s => s.status == st && s.candidate == some cr)

/-- Number of `computeTraceSteps` steps with a given status at a given
depth (column). -/
def countAtColT (st : TStatus) (c : Nat) (tr : List TStep) : Nat :=
  tr.countP (fun s => s.status == st &&
    match s.candidate with
    | some cr => cr.1 == c
    | none => false)

/-- The board mutation associated with one generator event: `place` sets
`board[row] = col` (done just before the yield), `remove` sets
`board[row] = undefined` (done just after the yield), `solution` mutates
nothing. -/
def applyEvent (b : List (Option Nat)) (e : JsEvent) : List (Option Nat) :=
  match e.action, e.row, e.col with
  | JsAction.place, some r, some c => b.set r (some c)
  | JsAction.remove, some r, _ => b.set r none
  | _, _, _ => b

/-- The board mutation associated with one `computeTraceSteps` step:
`placed` sets `board[col] = row`, `backtrack` sets `board[col] = -1`,
`attempt` and `solution` mutate nothing. -/
def applyTStep (b : List Int) (s : TStep) : List Int :=
  match s.status, s.candidate with
  | TStatus.placed, some cr => b.set cr.1 (Int.ofNat cr.2)
  | TStatus.backtrack, some cr => b.set cr.1 (-1)
  | _, _ => b

/-- The bitmask state `(columns, diag1, diag2)` determined by a placed
prefix `qs`, obtained by replaying the mask updates of the bitmask
routines (`columns | pick`, `(diag1 | pick) << 1`, `(diag2 | pick) >> 1`
with `pick = 1 << col`) along the prefix. -/
def masksOf (qs : List Nat) : Nat × Nat × Nat :=
  qs.foldl
    (fun m col =>
      (m.1 ||| (1 <<< col), ((m.2.1 ||| (1 <<< col)) <<< 1) % U32,
        sar1 (m.2.2 ||| (1 <<< col))))
    (0, 0, 0)

/-- The indices of the set bits of a 32-bit value, in increasing order. -/
def bitList (u : Nat) : List Nat :=
  (List.range 32).filter u.testBit

/-- The column sequences of the solutions of a generator trace, in trace
order: each `solution` board read as its decided column indices. -/
def solSeqs (tr : List JsEvent) : List (List Nat) :=
  (solBoards tr).map colSeq

/-- The semantic content of the bitmask state `(columns, diag1, diag2)`
relative to the placed prefix `qs` (one queen per row `i < qs.length`, in
column `qs.get i`): `columns` has exactly the used columns set, `diag1`
bit `c` records a queen on the `/`-diagonal that crosses the current row
at column `c`, and `diag2` bit `c` the same for the `\`-diagonal.  All
three are 32-bit values, `diag2` never reaches the sign bit, and all
placed columns fit in bits `0 .. 30` (as they do whenever the mask
`(1 << n) - 1` computed by JavaScript admitted them). -/
def MaskInv (qs : List Nat) (cols d1 d2 : Nat) : Prop :=
  cols < U32 ∧ d1 < U32 ∧ d2 < 2 ^ 31 ∧ (∀ x ∈ qs, x ≤ 30) ∧
    (∀ c, c < 32 →
      (cols.testBit c ↔ ∃ i, ∃ h : i < qs.length, qs.get ⟨i, h⟩ = c)) ∧
    (∀ c, c < 32 →
      (d1.testBit c ↔ ∃ i, ∃ h : i < qs.length, qs.get ⟨i, h⟩ + (qs.length - i) = c)) ∧
    (∀ c, c < 32 →
      (d2.testBit c ↔ ∃ i, ∃ h : i < qs.length,
        qs.length - i ≤ qs.get ⟨i, h⟩ ∧ qs.get ⟨i, h⟩ - (qs.length - i) = c))

/-- No two entries of the decided prefix `qs` attack each other: entries at
rows `i < j` differ (distinct columns) and are not a diagonal distance
`j - i` apart.  This is the search invariant maintained by both
strategies. -/
def NoAttack (qs : List Nat) : Prop :=
  ∀ i j (hi : i < qs.length) (hj : j < qs.length), i < j →
    qs.get ⟨i, hi⟩ ≠ qs.get ⟨j, hj⟩ ∧
      Int.natAbs ((qs.get ⟨i, hi⟩ : Int) - (qs.get ⟨j, hj⟩ : Int)) ≠ j - i

/-! ## Generic lemmas about the loop combinators -/

theorem mem_concatMap {f : α → List β} {l : List α} {b : β} :
    b ∈ concatMap f l ↔ ∃ a ∈ l, b ∈ f a := by
  induction l with
  | nil => simp [concatMap]
  | cons x xs ih => simp [concatMap, ih]

theorem concatMap_congr {f g : α → List β} {l : List α}
    (h : ∀ a ∈ l, f a = g a) : concatMap f l = concatMap g l := by
  induction l with
  | nil => rfl
  | cons x xs ih =>
    simp only [concatMap]
    rw [h x (List.mem_cons_self x xs), ih fun a ha => h a (List.mem_cons_of_mem x ha)]

theorem countP_concatMap (p : β → Bool) (f : α → List β) (l : List α) :
    (concatMap f l).countP p = sumOver (fun a => (f a).countP p) l := by
  induction l with
  | nil => simp [concatMap, sumOver]
  | cons x xs ih => simp [concatMap, sumOver, List.countP_append, ih]

theorem concatMap_guard (p : α → Bool) (f : α → List β) (l : List α) :
    concatMap (fun a => if p a then [] else f a) l
      = concatMap f (l.filter (fun a => !p a)) := by
  induction l with
  | nil => rfl
  | cons x xs ih =>
    by_cases hp : p x <;> simp [concatMap, List.filter_cons, hp, ih]

theorem sumOver_guard (p : α → Bool) (f : α → Nat) (l : List α) :
    sumOver (fun a => if p a then 0 else f a) l
      = sumOver f (l.filter (fun a => !p a)) := by
  induction l with
  | nil => rfl
  | cons x xs ih =>
    by_cases hp : p x <;> simp [sumOver, List.filter_cons, hp, ih]

theorem sumOver_congr {f g : α → Nat} {l : List α}
    (h : ∀ a ∈ l, f a = g a) : sumOver f l = sumOver g l := by
  induction l with
  | nil => rfl
  | cons x xs ih =>
    simp only [sumOver]
    rw [h x (List.mem_cons_self x xs), ih fun a ha => h a (List.mem_cons_of_mem x ha)]

theorem pairwise_concatMap {R : α → α → Prop} {S : β → β → Prop}
    {f : α → List β} {l : List α} (hl : l.Pairwise R)
    (hf : ∀ a ∈ l, (f a).Pairwise S)
    (hcross : ∀ a b, a ∈ l → b ∈ l → R a b → ∀ x ∈ f a, ∀ y ∈ f b, S x y) :
    (concatMap f l).Pairwise S := by
  induction l with
  | nil => exact List.Pairwise.nil
  | cons a as ih =>
    rw [show concatMap f (a :: as) = f a ++ concatMap f as from rfl]
    refine List.pairwise_append.2 ⟨hf a (List.mem_cons_self a as), ?_, ?_⟩
    · exact ih (List.Pairwise.sublist (List.sublist_cons_self a as) hl)
        (fun b hb => hf b (List.mem_cons_of_mem a hb))
        (fun b b' hb hb' => hcross b b' (List.mem_cons_of_mem a hb) (List.mem_cons_of_mem a hb'))
    · intro x hx y hy
      obtain ⟨b, hb, hyb⟩ := mem_concatMap.1 hy
      exact hcross a b (List.mem_cons_self a as) (List.mem_cons_of_mem a hb)
        (List.rel_of_pairwise_cons hl hb) x hx y hyb

theorem foldl_concatMap_fixed {g : γ → β → γ} {f : α → List β} {l : List α} {s : γ}
    (h : ∀ a ∈ l, List.foldl g s (f a) = s) :
    List.foldl g s (concatMap f l) = s := by
  induction l with
  | nil => rfl
  | cons x xs ih =>
    simp only [concatMap, List.foldl_append]
    rw [h x (List.mem_cons_self x xs)]
    exact ih fun a ha => h a (List.mem_cons_of_mem x ha)

/-! ## Lemmas about board snapshots -/

theorem snapshot_nil (n : Nat) : snapshot n [] = List.replicate n none := by
  simp [snapshot]

theorem snapshot_full {n : Nat} {qs : List Nat} (h : qs.length = n) :
    snapshot n qs = qs.map some := by
  simp [snapshot, h]

theorem colSeq_snapshot (n : Nat) (qs : List Nat) : colSeq (snapshot n qs) = qs := by
  simp only [colSeq, snapshot, List.filterMap_append]
  rw [show (List.filterMap id (qs.map some)) = qs by
    rw [List.filterMap_map]; exact List.filterMap_some qs]
  rw [List.filterMap_replicate_of_none rfl, List.append_nil]

theorem snapshot_set_place {n : Nat} {qs : List Nat} (h : qs.length < n) (c : Nat) :
    (snapshot n qs).set qs.length (some c) = snapshot n (qs ++ [c]) := by
  simp only [snapshot]
  rw [List.set_append_right _ _ (by simp)]
  have hrep : n - qs.length = (n - (qs.length + 1)) + 1 := by omega
  simp [hrep, List.replicate_succ]

theorem snapshot_set_remove {n : Nat} {qs : List Nat} (h : qs.length < n) (c : Nat) :
    (snapshot n (qs ++ [c])).set qs.length none = snapshot n qs := by
  simp only [snapshot]
  rw [List.set_append_left _ _ (by simp)]
  have hrep : n - qs.length = (n - (qs.length + 1)) + 1 := by omega
  simp [hrep, List.replicate_succ, List.set_append_right, List.map_append]

theorem snapshot_getD {n : Nat} {qs : List Nat} (i : Nat) :
    (snapshot n qs).getD i none
      = if h : i < qs.length then some (qs.get ⟨i, h⟩) else none := by
  simp only [snapshot, List.getD_eq_getElem?_getD]
  by_cases h : i < qs.length
  · rw [List.getElem?_append_left (by simpa using h)]
    simp [List.getElem?_map, h, List.getElem?_eq_getElem]
  · rw [List.getElem?_append_right (by simpa using Nat.le_of_not_lt h)]
    simp only [List.length_map, List.getElem?_replicate, h, dite_false]
    split <;> rfl

theorem tSnapshot_set_place {n : Nat} {qs : List Nat} (h : qs.length < n) (c : Nat) :
    (tSnapshot n qs).set qs.length (Int.ofNat c) = tSnapshot n (qs ++ [c]) := by
  simp only [tSnapshot]
  rw [List.set_append_right _ _ (by simp)]
  have hrep : n - qs.length = (n - (qs.length + 1)) + 1 := by omega
  simp [hrep, List.replicate_succ]

theorem tSnapshot_set_remove {n : Nat} {qs : List Nat} (h : qs.length < n) (c : Nat) :
    (tSnapshot n (qs ++ [c])).set qs.length (-1) = tSnapshot n qs := by
  simp only [tSnapshot]
  rw [List.set_append_left _ _ (by simp)]
  have hrep : n - qs.length = (n - (qs.length + 1)) + 1 := by omega
  simp [hrep, List.replicate_succ, List.set_append_right, List.map_append]

theorem tSnapshot_getD {n : Nat} {qs : List Nat} (i : Nat) :
    (tSnapshot n qs).getD i (-1)
      = if h : i < qs.length then Int.ofNat (qs.get ⟨i, h⟩) else -1 := by
  simp only [tSnapshot, List.getD_eq_getElem?_getD]
  by_cases h : i < qs.length
  · rw [List.getElem?_append_left (by simpa using h)]
    simp [List.getElem?_map, h, List.getElem?_eq_getElem]
  · rw [List.getElem?_append_right (by simpa using Nat.le_of_not_lt h)]
    simp only [List.length_map, List.getElem?_replicate, h, dite_false]
    split <;> rfl

/-! ## The conflict scan -/

theorem scanConflict_eq_true_iff (qs : List Nat) (dist c : Nat) :
    scanConflict qs dist c = true ↔
      ∃ i, ∃ h : i < qs.length,
        qs.get ⟨i, h⟩ = c ∨
          Int.natAbs ((qs.get ⟨i, h⟩ : Int) - (c : Int)) = dist - i := by
  induction qs generalizing dist with
  | nil => simp [scanConflict]
  | cons q rest ih =>
    simp only [scanConflict, Bool.or_eq_true, beq_iff_eq, ih]
    constructor
    · rintro ((h | h) | ⟨i, hi, h⟩)
      · exact ⟨0, by simp, Or.inl h⟩
      · exact ⟨0, by simp, Or.inr (by simpa using h)⟩
      · refine ⟨i + 1, by simpa using hi, ?_⟩
        simpa [Nat.sub_sub, Nat.add_comm] using h
    · rintro ⟨i, hi, h⟩
      match i, hi with
      | 0, _ => simp only [List.get] at h; tauto
      | i + 1, hi =>
        refine Or.inr ⟨i, by simpa using hi, ?_⟩
        simpa [Nat.sub_sub, Nat.add_comm] using h

theorem scanConflict_eq_false_iff (qs : List Nat) (dist c : Nat) :
    scanConflict qs dist c = false ↔
      ∀ i (h : i < qs.length),
        qs.get ⟨i, h⟩ ≠ c ∧
          Int.natAbs ((qs.get ⟨i, h⟩ : Int) - (c : Int)) ≠ dist - i := by
  rw [← Bool.not_eq_true, scanConflict_eq_true_iff]
  push_neg
  rfl

/-! ## The non-attacking invariant -/

theorem noAttack_nil : NoAttack [] := by
  intro i j hi hj
  simp at hi

theorem NoAttack.append {qs : List Nat} {c : Nat} (h : NoAttack qs)
    (hc : scanConflict qs qs.length c = false) : NoAttack (qs ++ [c]) := by
  have hscan := (scanConflict_eq_false_iff qs qs.length c).1 hc
  intro i j hi hj hij
  rcases Nat.lt_or_ge j qs.length with hj' | hj'
  · have hi' : i < qs.length := Nat.lt_trans hij hj'
    have e1 : (qs ++ [c]).get ⟨i, hi⟩ = qs.get ⟨i, hi'⟩ := by
      simp only [List.get_eq_getElem]
      exact List.getElem_append_left hi'
    have e2 : (qs ++ [c]).get ⟨j, hj⟩ = qs.get ⟨j, hj'⟩ := by
      simp only [List.get_eq_getElem]
      exact List.getElem_append_left hj'
    rw [e1, e2]
    exact h i j hi' hj' hij
  · have hjlen : j = qs.length := by
      have := hj
      simp only [List.length_append, List.length_singleton] at this
      omega
    have hi' : i < qs.length := by omega
    have e1 : (qs ++ [c]).get ⟨i, hi⟩ = qs.get ⟨i, hi'⟩ := by
      simp only [List.get_eq_getElem]
      exact List.getElem_append_left hi'
    have e2 : (qs ++ [c]).get ⟨j, hj⟩ = c := by
      simp only [List.get_eq_getElem]
      exact List.getElem_concat_length qs c j hjlen _
    rw [e1, e2]
    obtain ⟨hne, hdiag⟩ := hscan i hi'
    exact ⟨hne, by rw [hjlen]; exact hdiag⟩

theorem NoAttack.nodup {qs : List Nat} (h : NoAttack qs) : qs.Nodup := by
  rw [List.Nodup, List.pairwise_iff_getElem]
  intro i j hi hj hij
  have := (h i j hi hj hij).1
  simpa [List.get_eq_getElem] using this

theorem NoAttack.perm_range {qs : List Nat} {n : Nat} (h : NoAttack qs)
    (hlen : qs.length = n) (hent : ∀ x ∈ qs, x < n) :
    qs.Perm (List.range n) := by
  have hsub : qs ⊆ List.range n := fun x hx => List.mem_range.2 (hent x hx)
  have hsp := List.subperm_of_subset h.nodup hsub
  exact hsp.perm_of_length_le (by simp [hlen])

theorem natAbs_cast_sub_of_lt {i j : Nat} (h : i < j) :
    Int.natAbs ((i : Int) - (j : Int)) = j - i := by
  omega

theorem NoAttack.diag {qs : List Nat} (h : NoAttack qs) :
    ∀ i j (hi : i < qs.length) (hj : j < qs.length), i ≠ j →
      Int.natAbs ((qs.get ⟨i, hi⟩ : Int) - (qs.get ⟨j, hj⟩ : Int)) ≠
        Int.natAbs ((i : Int) - (j : Int)) := by
  intro i j hi hj hij
  rcases Nat.lt_or_ge i j with hlt | hge
  · rw [natAbs_cast_sub_of_lt hlt]
    exact (h i j hi hj hlt).2
  · have hlt : j < i := by omega
    have := (h j i hj hi hlt).2
    omega

/-! ## Structure of the array-strategy trace -/

theorem backtrackArray_events {n : Nat} : ∀ fuel qs, NoAttack qs → (∀ x ∈ qs, x < n) →
    ∀ e ∈ backtrackArray n fuel qs,
      ∃ qs2, e.board = snapshot n qs2 ∧ NoAttack qs2 ∧ (∀ x ∈ qs2, x < n) ∧
        (e.action = JsAction.solution → qs2.length = n) := by
  intro fuel
  induction fuel with
  | zero =>
    intro qs _ _ e he
    simp [backtrackArray] at he
  | succ f ih =>
    intro qs hna hent e he
    by_cases hlen : qs.length = n
    · simp only [backtrackArray, if_pos hlen, List.mem_singleton] at he
      subst he
      exact ⟨qs, rfl, hna, hent, fun _ => hlen⟩
    · simp only [backtrackArray, if_neg hlen] at he
      obtain ⟨col, hcol, he⟩ := mem_concatMap.1 he
      have hcoln : col < n := List.mem_range.1 hcol
      by_cases hc : scanConflict qs qs.length col
      · simp [hc] at he
      · rw [if_neg (by simp [hc])] at he
        have hna' : NoAttack (qs ++ [col]) :=
          hna.append (by simpa using hc)
        have hent' : ∀ x ∈ qs ++ [col], x < n := by
          intro x hx
          rcases List.mem_append.1 hx with hx | hx
          · exact hent x hx
          · rw [List.mem_singleton.1 hx]; exact hcoln
        rcases List.mem_cons.1 he with he | he
        · subst he
          exact ⟨qs ++ [col], rfl, hna', hent', by intro h; cases h⟩
        rcases List.mem_append.1 he with he | he
        · exact ih (qs ++ [col]) hna' hent' e he
        · rw [List.mem_singleton.1 he]
          exact ⟨qs ++ [col], rfl, hna', hent', by intro h; cases h⟩

/-- Solution events of the array strategy are counted by the array
counter (same fuel, same prefix). -/
theorem countP_solution_backtrackArray {n : Nat} : ∀ fuel qs,
    (backtrackArray n fuel qs).countP (fun e => e.action == JsAction.solution)
      = countBacktrackArray n fuel qs := by
  intro fuel
  induction fuel with
  | zero => intro qs; simp [backtrackArray, countBacktrackArray]
  | succ f ih =>
    intro qs
    by_cases hlen : qs.length = n
    · simp [backtrackArray, countBacktrackArray, hlen, List.countP_cons]
    · simp only [backtrackArray, countBacktrackArray, if_neg hlen]
      rw [countP_concatMap]
      apply sumOver_congr
      intro col _
      by_cases hc : scanConflict qs qs.length col
      · simp [hc]
      · simp [hc, List.countP_cons, List.countP_append, ih]

/-- `place` and `remove` events of the array strategy are balanced: for any
predicate on the acted-on coordinate, the matching `place` events and the
matching `remove` events are equinumerous (same fuel, same prefix). -/
theorem countBal_backtrackArray {n : Nat} (f : Option Nat → Option Nat → Bool) :
    ∀ fuel qs,
    (backtrackArray n fuel qs).countP (fun e => e.action == JsAction.place && f e.row e.col)
      = (backtrackArray n fuel qs).countP
          (fun e => e.action == JsAction.remove && f e.row e.col) := by
  intro fuel
  induction fuel with
  | zero => intro qs; simp [backtrackArray]
  | succ f2 ih =>
    intro qs
    by_cases hlen : qs.length = n
    · simp [backtrackArray, hlen, List.countP_cons]
    · simp only [backtrackArray, if_neg hlen]
      rw [countP_concatMap, countP_concatMap]
      apply sumOver_congr
      intro col _
      by_cases hc : scanConflict qs qs.length col
      · simp [hc]
      · simp only [if_neg hc]
        have hrec := ih (qs ++ [col])
        simp [List.countP_cons, List.countP_append, hrec, Bool.and_eq_true, beq_iff_eq]

/-- Replaying the board mutations of any array-strategy subtrace returns
the board to its starting snapshot. -/
theorem foldl_applyEvent_backtrackArray {n : Nat} : ∀ fuel qs, qs.length ≤ n →
    List.foldl applyEvent (snapshot n qs) (backtrackArray n fuel qs)
      = snapshot n qs := by
  intro fuel
  induction fuel with
  | zero => intro qs _; simp [backtrackArray]
  | succ f ih =>
    intro qs hqs
    by_cases hlen : qs.length = n
    · simp [backtrackArray, hlen, applyEvent]
    · have hlt : qs.length < n := Nat.lt_of_le_of_ne hqs hlen
      simp only [backtrackArray, if_neg hlen]
      apply foldl_concatMap_fixed
      intro col _
      by_cases hc : scanConflict qs qs.length col
      · simp [hc]
      · rw [if_neg (by simp [hc])]
        simp only [List.foldl_cons, List.foldl_append]
        rw [show applyEvent (snapshot n qs)
              ⟨JsAction.place, some qs.length, some col, snapshot n (qs ++ [col])⟩
            = snapshot n (qs ++ [col]) from by
          simp [applyEvent, snapshot_set_place hlt]]
        rw [ih (qs ++ [col]) (by simp; omega)]
        simp only [List.foldl_cons, List.foldl_nil]
        simp [applyEvent, snapshot_set_remove hlt]

/-! ## Structure of the `computeTraceSteps` trace -/

theorem ctSolve_events {n : Nat} : ∀ fuel qs, NoAttack qs → (∀ x ∈ qs, x < n) →
    ∀ s ∈ ctSolve n fuel qs,
      ∃ qs2, s.board = tSnapshot n qs2 ∧ NoAttack qs2 ∧ (∀ x ∈ qs2, x < n) ∧
        (s.status = TStatus.solution → qs2.length = n) := by
  intro fuel
  induction fuel with
  | zero =>
    intro qs _ _ s hs
    simp [ctSolve] at hs
  | succ f ih =>
    intro qs hna hent s hs
    by_cases hlen : qs.length = n
    · simp only [ctSolve, if_pos hlen, List.mem_singleton] at hs
      subst hs
      exact ⟨qs, rfl, hna, hent, fun _ => hlen⟩
    · simp only [ctSolve, if_neg hlen] at hs
      obtain ⟨row, hrow, hs⟩ := mem_concatMap.1 hs
      have hrown : row < n := List.mem_range.1 hrow
      rcases List.mem_cons.1 hs with hs | hs
      · subst hs
        exact ⟨qs, rfl, hna, hent, by intro h; cases h⟩
      by_cases hc : scanConflict qs qs.length row
      · simp [hc] at hs
      · rw [if_neg hc] at hs
        have hna2 : NoAttack (qs ++ [row]) := hna.append (by simpa using hc)
        have hent2 : ∀ x ∈ qs ++ [row], x < n := by
          intro x hx
          rcases List.mem_append.1 hx with hx | hx
          · exact hent x hx
          · rw [List.mem_singleton.1 hx]; exact hrown
        rcases List.mem_cons.1 hs with hs | hs
        · subst hs
          exact ⟨qs ++ [row], rfl, hna2, hent2, by intro h; cases h⟩
        rcases List.mem_append.1 hs with hs | hs
        · exact ih (qs ++ [row]) hna2 hent2 s hs
        · rw [List.mem_singleton.1 hs]
          exact ⟨qs, rfl, hna, hent, by intro h; cases h⟩

/-- `placed` and `backtrack` steps of `computeTraceSteps` are balanced: for
any predicate on the candidate cell, the matching `placed` steps and the
matching `backtrack` steps are equinumerous (same fuel, same prefix). -/
theorem countBal_ctSolve {n : Nat} (g : Option (Nat × Nat) → Bool) : ∀ fuel qs,
    (ctSolve n fuel qs).countP (fun s => s.status == TStatus.placed && g s.candidate)
      = (ctSolve n fuel qs).countP
          (fun s => s.status == TStatus.backtrack && g s.candidate) := by
  intro fuel
  induction fuel with
  | zero => intro qs; simp [ctSolve]
  | succ f ih =>
    intro qs
    by_cases hlen : qs.length = n
    · simp [ctSolve, hlen, List.countP_cons]
    · simp only [ctSolve, if_neg hlen]
      rw [countP_concatMap, countP_concatMap]
      apply sumOver_congr
      intro row _
      by_cases hc : scanConflict qs qs.length row
      · simp [hc, List.countP_cons]
      · simp only [if_neg hc]
        have hrec := ih (qs ++ [row])
        simp [List.countP_cons, List.countP_append, hrec, Bool.and_eq_true, beq_iff_eq]

/-- Replaying the board mutations of any `computeTraceSteps` subtrace
returns the board to its starting snapshot. -/
theorem foldl_applyTStep_ctSolve {n : Nat} : ∀ fuel qs, qs.length ≤ n →
    List.foldl applyTStep (tSnapshot n qs) (ctSolve n fuel qs) = tSnapshot n qs := by
  intro fuel
  induction fuel with
  | zero => intro qs _; simp [ctSolve]
  | succ f ih =>
    intro qs hqs
    by_cases hlen : qs.length = n
    · simp [ctSolve, hlen, applyTStep]
    · have hlt : qs.length < n := Nat.lt_of_le_of_ne hqs hlen
      simp only [ctSolve, if_neg hlen]
      apply foldl_concatMap_fixed
      intro row _
      simp only [List.foldl_cons]
      rw [show applyTStep (tSnapshot n qs)
            ⟨tSnapshot n qs, some (qs.length, row), TStatus.attempt⟩ = tSnapshot n qs from rfl]
      by_cases hc : scanConflict qs qs.length row
      · simp [hc]
      · rw [if_neg hc]
        simp only [List.foldl_cons, List.foldl_append]
        rw [show applyTStep (tSnapshot n qs)
              ⟨tSnapshot n (qs ++ [row]), some (qs.length, row), TStatus.placed⟩
            = tSnapshot n (qs ++ [row]) from by
          simp only [applyTStep]
          exact tSnapshot_set_place hlt row]
        rw [ih (qs ++ [row]) (by simp; omega)]
        simp only [List.foldl_cons, List.foldl_nil]
        simp [applyTStep, tSnapshot_set_remove hlt]

/-! ## Lexicographic order of the emitted solutions (array strategy) -/

theorem solSeqs_append (a b : List JsEvent) :
    solSeqs (a ++ b) = solSeqs a ++ solSeqs b := by
  simp [solSeqs, solBoards, List.filter_append]

theorem solSeqs_concatMap (f : α → List JsEvent) (l : List α) :
    solSeqs (concatMap f l) = concatMap (fun x => solSeqs (f x)) l := by
  induction l with
  | nil => simp [concatMap, solSeqs, solBoards]
  | cons x xs ih => simp [concatMap, solSeqs_append, ih]

theorem lex_append_cons {c1 c2 : Nat} (h : c1 < c2) (p t1 t2 : List Nat) :
    List.Lex (· < ·) (p ++ c1 :: t1) (p ++ c2 :: t2) := by
  induction p with
  | nil => exact List.Lex.rel h
  | cons x p ih => exact List.Lex.cons ih

theorem solSeqs_backtrackArray {n : Nat} : ∀ fuel qs,
    List.Pairwise (List.Lex (· < ·)) (solSeqs (backtrackArray n fuel qs)) ∧
      ∀ s ∈ solSeqs (backtrackArray n fuel qs), ∃ t, s = qs ++ t := by
  intro fuel
  induction fuel with
  | zero =>
    intro qs
    constructor
    · simp [backtrackArray, solSeqs, solBoards]
    · intro s hs
      simp [backtrackArray, solSeqs, solBoards] at hs
  | succ f ih =>
    intro qs
    by_cases hlen : qs.length = n
    · constructor
      · simp [backtrackArray, hlen, solSeqs, solBoards]
      · intro s hs
        simp only [backtrackArray, if_pos hlen, solSeqs, solBoards] at hs
        simp only [List.filter_cons] at hs
        simp [colSeq_snapshot] at hs
        exact ⟨[], by simp [hs]⟩
    · have hdecomp : solSeqs (backtrackArray n (f + 1) qs)
          = concatMap (fun col =>
              if scanConflict qs qs.length col then []
              else solSeqs (backtrackArray n f (qs ++ [col]))) (List.range n) := by
        simp only [backtrackArray, if_neg hlen]
        rw [solSeqs_concatMap]
        apply concatMap_congr
        intro col _
        by_cases hc : scanConflict qs qs.length col
        · simp [hc, solSeqs, solBoards]
        · simp only [if_neg hc]
          simp [solSeqs, solBoards, List.filter_cons, List.filter_append]
      rw [hdecomp, concatMap_guard]
      constructor
      · apply pairwise_concatMap (List.Pairwise.filter _ (List.pairwise_lt_range n))
        · intro col _
          exact (ih (qs ++ [col])).1
        · intro c1 c2 h1 h2 hlt x hx y hy
          obtain ⟨t1, rfl⟩ := (ih (qs ++ [c1])).2 x hx
          obtain ⟨t2, rfl⟩ := (ih (qs ++ [c2])).2 y hy
          simpa [List.append_assoc] using lex_append_cons hlt qs t1 t2
      · intro s hs
        obtain ⟨col, _, hsc⟩ := mem_concatMap.1 hs
        obtain ⟨t, rfl⟩ := (ih (qs ++ [col])).2 s hsc
        exact ⟨col :: t, by simp⟩

/-! ## Nonemptiness of the array trace for positive sizes -/

theorem backtrackArray_succ (n fuel : Nat) (qs : List Nat) :
    backtrackArray n (fuel + 1) qs =
      if qs.length = n then
        [⟨JsAction.solution, none, none, snapshot n qs⟩]
      else
        concatMap (fun col =>
          if scanConflict qs qs.length col then []
          else
            ⟨JsAction.place, some qs.length, some col, snapshot n (qs ++ [col])⟩ ::
              (backtrackArray n fuel (qs ++ [col]) ++
                [⟨JsAction.remove, some qs.length, some col, snapshot n (qs ++ [col])⟩]))
          (List.range n) := rfl

theorem solveNQueensArray_ne_nil {n : Nat} (h : 0 < n) :
    solveNQueensArray n ≠ [] := by
  obtain ⟨m, rfl⟩ : ∃ m, n = m + 1 := ⟨n - 1, by omega⟩
  show backtrackArray (m + 1) (m + 1 + 1) [] ≠ []
  rw [backtrackArray_succ, if_neg (by simp), List.range_succ_eq_map]
  simp only [concatMap, List.length_nil]
  rw [show scanConflict [] 0 0 = false from rfl]
  simp

/-! ## 32-bit arithmetic of the bitmask encoding -/

theorem U32_eq : U32 = 4294967296 := by norm_num [U32]

theorem jsMask_eq (n : Nat) : jsMask n = 2 ^ (n % 32) - 1 := by
  have h32 : n % 32 < 32 := Nat.mod_lt _ (by norm_num)
  have hlt : 2 ^ (n % 32) < 2 ^ 32 := Nat.pow_lt_pow_right (by norm_num) h32
  have h1 : (1 : Nat) ≤ 2 ^ (n % 32) := Nat.one_le_two_pow
  have e32 : (2 : Nat) ^ 32 = 4294967296 := by norm_num
  unfold jsMask U32
  rw [Nat.shiftLeft_eq, one_mul, Nat.mod_eq_of_lt hlt]
  rw [e32] at hlt ⊢
  omega

theorem jsMask_lt (n : Nat) : jsMask n < 2 ^ 31 := by
  rw [jsMask_eq]
  have h32 : n % 32 < 32 := Nat.mod_lt _ (by norm_num)
  have : 2 ^ (n % 32) ≤ 2 ^ 31 := Nat.pow_le_pow_right (by norm_num) (by omega)
  have h1 : (1 : Nat) ≤ 2 ^ (n % 32) := Nat.one_le_two_pow
  omega

theorem exists_pow_mul_odd {u : Nat} (hu : 0 < u) :
    ∃ k a, u = 2 ^ k * (2 * a + 1) := by
  obtain ⟨k, m, hm, hu'⟩ := Nat.exists_eq_two_pow_mul_odd (Nat.pos_iff_ne_zero.1 hu)
  obtain ⟨a, ha⟩ := hm
  have hma : m = 2 * a + 1 := by omega
  exact ⟨k, a, by rw [hu', hma]⟩

theorem decomp_eq (k a : Nat) : 2 ^ k * (2 * a + 1) = 2 ^ (k + 1) * a + 2 ^ k := by
  ring

theorem testBit_decomp (k a j : Nat) :
    (2 ^ k * (2 * a + 1)).testBit j
      = if j < k then false else if j = k then true else a.testBit (j - k - 1) := by
  rw [decomp_eq]
  rw [Nat.testBit_mul_pow_two_add a (Nat.pow_lt_pow_right (by norm_num) (Nat.lt_succ_self k)) j]
  rcases Nat.lt_trichotomy j k with h | h | h
  · simp [h, Nat.lt_succ_of_lt h, Nat.testBit_two_pow, Nat.ne_of_gt h]
  · subst h
    simp [Nat.lt_succ_self, Nat.testBit_two_pow]
  · have h1 : ¬ j < k + 1 := by omega
    have h2 : ¬ j < k := by omega
    have h3 : j ≠ k := by omega
    simp [h1, h2, h3, Nat.sub_sub]

theorem testBit_shifted (k a j : Nat) :
    (2 ^ (k + 1) * a).testBit j = if j ≤ k then false else a.testBit (j - k - 1) := by
  rw [Nat.testBit_mul_pow_two]
  by_cases h : j ≤ k
  · simp [h, show ¬ j ≥ k + 1 by omega]
  · simp [h, show j ≥ k + 1 by omega, Nat.sub_sub]

theorem lowBit_eq {u k a : Nat} (hlt : u < U32) (hd : u = 2 ^ k * (2 * a + 1)) :
    lowBit u = 2 ^ k := by
  have hk32 : 2 ^ k ≤ u := by
    rw [hd]
    exact Nat.le_mul_of_pos_right _ (by omega)
  have hklt : (2 : Nat) ^ k < 2 ^ 32 := by
    have hU : U32 = 2 ^ 32 := rfl
    omega
  have hk : k < 32 := by
    by_contra hk
    have : (2 : Nat) ^ 32 ≤ 2 ^ k := Nat.pow_le_pow_right (by norm_num) (Nat.le_of_not_lt hk)
    omega
  have hsplit : (2 : Nat) ^ 32 = 2 ^ k * 2 ^ (32 - k) := by
    rw [← Nat.pow_add]
    congr 1
    omega
  have hs2 : (2 : Nat) ^ (32 - k) = 2 * 2 ^ (31 - k) := by
    rw [← Nat.pow_succ']
    congr 1
    omega
  have ha : 2 * a + 1 < 2 ^ (32 - k) := by
    have h1 : 2 ^ k * (2 * a + 1) < 2 ^ k * 2 ^ (32 - k) := by
      rw [← hsplit]
      rw [hd] at hlt
      simpa [U32] using hlt
    exact Nat.lt_of_mul_lt_mul_left h1
  have ha2 : a < 2 ^ (31 - k) := by omega
  have hcompl : U32 - u = 2 ^ k * (2 * (2 ^ (31 - k) - 1 - a) + 1) := by
    have e1 : U32 - u = 2 ^ k * (2 ^ (32 - k) - (2 * a + 1)) := by
      rw [show (U32 : Nat) = 2 ^ k * 2 ^ (32 - k) from hsplit, hd, ← Nat.mul_sub]
    rw [e1]
    exact congrArg (fun t => 2 ^ k * t)
      (show 2 ^ (32 - k) - (2 * a + 1) = 2 * (2 ^ (31 - k) - 1 - a) + 1 by omega)
  have hu0 : 0 < u := Nat.lt_of_lt_of_le (Nat.two_pow_pos k) hk32
  have hU0 : 0 < U32 := by norm_num [U32]
  have hneg : negU32 u = U32 - u := by
    unfold negU32
    exact Nat.mod_eq_of_lt (by omega)
  apply Nat.eq_of_testBit_eq
  intro j
  rw [lowBit, hneg, Nat.testBit_and, hcompl, hd, Nat.testBit_two_pow]
  rw [testBit_decomp, testBit_decomp]
  rcases Nat.lt_trichotomy j k with h | h | h
  · simp [h, Nat.ne_of_gt h]
  · subst h
    simp
  · have h1 : ¬ j < k := by omega
    have h2 : j ≠ k := by omega
    simp only [if_neg h1, if_neg h2]
    rw [show 2 ^ (31 - k) - 1 - a = 2 ^ (31 - k) - (a + 1) by omega,
      Nat.testBit_two_pow_sub_succ ha2]
    rw [decide_eq_false (show ¬ k = j by omega)]
    cases hm : a.testBit (j - k - 1) <;> simp [hm]

theorem clear_lowBit_eq {u k a : Nat} (hd : u = 2 ^ k * (2 * a + 1)) :
    u &&& (u - 1) = 2 ^ (k + 1) * a := by
  have h1 : (1 : Nat) ≤ 2 ^ k := Nat.one_le_two_pow
  have hps : (2 : Nat) ^ (k + 1) = 2 * 2 ^ k := Nat.pow_succ'
  have hb : (2 : Nat) ^ k - 1 < 2 ^ (k + 1) := by omega
  have hsub : u - 1 = 2 ^ (k + 1) * a + (2 ^ k - 1) := by
    rw [hd, decomp_eq]
    omega
  apply Nat.eq_of_testBit_eq
  intro j
  rw [Nat.testBit_and, hsub, hd, testBit_decomp,
    Nat.testBit_mul_pow_two_add a hb j, testBit_shifted]
  rcases Nat.lt_trichotomy j k with h | h | h
  · simp [h, Nat.le_of_lt h, Nat.lt_succ_of_lt h]
  · subst h
    simp [Nat.lt_succ_self]
  · have h2 : ¬ j < k := by omega
    have h3 : j ≠ k := by omega
    have h4 : ¬ j < k + 1 := by omega
    have h5 : ¬ j ≤ k := by omega
    simp [h2, h3, h4, h5, Nat.sub_sub]

theorem bitList_zero : bitList 0 = [] := by
  simp [bitList]

theorem mem_bitList {u i : Nat} (hu : u < U32) : i ∈ bitList u ↔ u.testBit i = true := by
  simp only [bitList, List.mem_filter, List.mem_range]
  constructor
  · exact fun h => h.2
  · intro h
    refine ⟨?_, h⟩
    by_contra hi
    rw [Nat.testBit_lt_two_pow] at h
    · exact Bool.false_ne_true h
    · calc u < U32 := hu
      _ ≤ 2 ^ i := by
          rw [U32]
          exact Nat.pow_le_pow_right (by norm_num) (Nat.le_of_not_lt hi)

theorem filter_range_eq_cons : ∀ (k : Nat) (p q : Nat → Bool) (n : Nat), k < n →
    (∀ i, i < k → p i = false) → p k = true → (∀ i, i ≤ k → q i = false) →
    (∀ i, k < i → p i = q i) →
    (List.range n).filter p = k :: (List.range n).filter q := by
  intro k
  induction k with
  | zero =>
    intro p q n hk hbelow hp hq hagree
    obtain ⟨m, rfl⟩ : ∃ m, n = m + 1 := ⟨n - 1, by omega⟩
    rw [List.range_succ_eq_map]
    rw [List.filter_cons_of_pos hp, List.filter_cons_of_neg (by simp [hq 0 (Nat.le_refl 0)])]
    congr 1
    rw [List.filter_map, List.filter_map]
    apply congrArg
    apply List.filter_congr
    intro i _
    exact hagree (i + 1) (Nat.succ_pos i)
  | succ k ih =>
    intro p q n hk hbelow hp hq hagree
    obtain ⟨m, rfl⟩ : ∃ m, n = m + 1 := ⟨n - 1, by omega⟩
    rw [List.range_succ_eq_map]
    rw [List.filter_cons_of_neg (by simp [hbelow 0 (Nat.succ_pos k)]),
      List.filter_cons_of_neg (by simp [hq 0 (Nat.zero_le _)])]
    rw [List.filter_map, List.filter_map]
    have hrec := ih (fun i => p (i + 1)) (fun i => q (i + 1)) m (by omega)
      (fun i hi => hbelow (i + 1) (by omega)) hp
      (fun i hi => hq (i + 1) (by omega))
      (fun i hi => hagree (i + 1) (by omega))
    rw [show (p ∘ Nat.succ) = fun i => p (i + 1) from rfl,
      show (q ∘ Nat.succ) = fun i => q (i + 1) from rfl, hrec]
    simp

theorem bitList_cons {u k a : Nat} (hlt : u < U32) (hd : u = 2 ^ k * (2 * a + 1)) :
    bitList u = k :: bitList (u &&& (u - 1)) := by
  have hk32 : k < 32 := by
    have hk : 2 ^ k ≤ u := by
      rw [hd]
      exact Nat.le_mul_of_pos_right _ (by omega)
    by_contra h32
    have h2 : (2 : Nat) ^ 32 ≤ 2 ^ k := Nat.pow_le_pow_right (by norm_num) (Nat.le_of_not_lt h32)
    rw [U32] at hlt
    omega
  rw [clear_lowBit_eq hd]
  unfold bitList
  apply filter_range_eq_cons k _ _ 32 hk32
  · intro i hi
    rw [hd, testBit_decomp]
    simp [hi]
  · rw [hd, testBit_decomp]
    simp
  · intro i hi
    rw [testBit_shifted]
    simp [hi]
  · intro i hi
    rw [hd, testBit_decomp, testBit_shifted]
    have h1 : ¬ i < k := by omega
    have h2 : i ≠ k := by omega
    have h3 : ¬ i ≤ k := by omega
    simp [h1, h2, h3]

theorem lowBit_log2 {u k a : Nat} (hlt : u < U32) (hd : u = 2 ^ k * (2 * a + 1)) :
    Nat.log2 (lowBit u) = k := by
  rw [lowBit_eq hlt hd, Nat.log2_two_pow]

/-! ## The bitmask state invariant -/

theorem exists_get_snoc {qs : List Nat} {x : Nat} {P : Nat → Nat → Prop} :
    (∃ i, ∃ h : i < (qs ++ [x]).length, P ((qs ++ [x]).get ⟨i, h⟩) i) ↔
      (∃ i, ∃ h : i < qs.length, P (qs.get ⟨i, h⟩) i) ∨ P x qs.length := by
  constructor
  · rintro ⟨i, hi, hp⟩
    have hi2 : i < qs.length + 1 := by simpa using hi
    rcases Nat.lt_or_ge i qs.length with hlt | hge
    · left
      refine ⟨i, hlt, ?_⟩
      rwa [show (qs ++ [x]).get ⟨i, hi⟩ = qs.get ⟨i, hlt⟩ from by
        simp only [List.get_eq_getElem]
        exact List.getElem_append_left hlt] at hp
    · right
      have hieq : i = qs.length := by omega
      subst hieq
      rwa [show (qs ++ [x]).get ⟨qs.length, hi⟩ = x from by
        simp only [List.get_eq_getElem]
        exact List.getElem_concat_length _ _ _ rfl _] at hp
  · rintro (⟨i, hi, hp⟩ | hp)
    · have hi2 : i < (qs ++ [x]).length := by
        simp only [List.length_append, List.length_singleton]
        omega
      refine ⟨i, hi2, ?_⟩
      rw [show (qs ++ [x]).get ⟨i, hi2⟩ = qs.get ⟨i, hi⟩ from by
        simp only [List.get_eq_getElem]
        exact List.getElem_append_left hi]
      exact hp
    · have hi2 : qs.length < (qs ++ [x]).length := by simp
      refine ⟨qs.length, hi2, ?_⟩
      rw [show (qs ++ [x]).get ⟨qs.length, hi2⟩ = x from by
        simp only [List.get_eq_getElem]
        exact List.getElem_concat_length _ _ _ rfl _]
      exact hp

theorem maskInv_nil : MaskInv [] 0 0 0 := by
  refine ⟨by norm_num [U32], by norm_num [U32], by norm_num, by simp, ?_, ?_, ?_⟩ <;>
    · intro c hc
      simp

theorem MaskInv.step {qs : List Nat} {cols d1 d2 col : Nat}
    (h : MaskInv qs cols d1 d2) (hcol : col ≤ 30) :
    MaskInv (qs ++ [col]) (cols ||| 2 ^ col)
      (((d1 ||| 2 ^ col) <<< 1) % U32) (sar1 (d2 ||| 2 ^ col)) := by
  obtain ⟨hclt, hd1lt, hd2lt, hent, hcols, hd1, hd2⟩ := h
  have hU : U32 = 2 ^ 32 := rfl
  have hcol31 : (2 : Nat) ^ col < 2 ^ 31 := Nat.pow_lt_pow_right (by norm_num) (by omega)
  have hcol32 : (2 : Nat) ^ col < 2 ^ 32 := Nat.pow_lt_pow_right (by norm_num) (by omega)
  have hop2 : d2 ||| 2 ^ col < 2 ^ 31 := Nat.or_lt_two_pow hd2lt hcol31
  have hsar : sar1 (d2 ||| 2 ^ col) = (d2 ||| 2 ^ col) / 2 := if_pos hop2
  have hlen : (qs ++ [col]).length = qs.length + 1 := by simp
  refine ⟨?_, ?_, ?_, ?_, ?_, ?_, ?_⟩
  · rw [hU]
    exact Nat.or_lt_two_pow (hU ▸ hclt) hcol32
  · exact Nat.mod_lt _ (by norm_num [U32])
  · rw [hsar]
    exact Nat.lt_of_le_of_lt (Nat.div_le_self _ _) hop2
  · intro x hx
    rcases List.mem_append.1 hx with hx | hx
    · exact hent x hx
    · rw [List.mem_singleton.1 hx]
      exact hcol
  · intro c hc
    rw [Nat.testBit_or, Nat.testBit_two_pow,
      @exists_get_snoc qs col (fun v _ => v = c)]
    simp only [Bool.or_eq_true, decide_eq_true_eq]
    exact or_congr (hcols c hc) Iff.rfl
  · intro c hc
    have hx : (((d1 ||| 2 ^ col) <<< 1) % U32).testBit c
        = (decide (1 ≤ c) && (d1.testBit (c - 1) || decide (col = c - 1))) := by
      rw [hU, Nat.testBit_mod_two_pow, Nat.testBit_shiftLeft]
      by_cases h1 : 1 ≤ c
      · simp [hc, show c ≥ 1 from h1, h1, Nat.testBit_or, Nat.testBit_two_pow]
      · simp [show ¬ c ≥ 1 from h1, h1]
    rw [hx, @exists_get_snoc qs col (fun v i => v + ((qs ++ [col]).length - i) = c)]
    constructor
    · intro hb
      simp only [Bool.and_eq_true, Bool.or_eq_true, decide_eq_true_eq] at hb
      obtain ⟨hc1, hb⟩ := hb
      rcases hb with hb | hb
      · obtain ⟨i, hi, he⟩ := (hd1 (c - 1) (by omega)).1 hb
        refine Or.inl ⟨i, hi, ?_⟩
        rw [hlen]
        omega
      · refine Or.inr ?_
        rw [hlen]
        omega
    · rintro (⟨i, hi, he⟩ | he)
      · rw [hlen] at he
        have hc1 : 1 ≤ c := by omega
        have he2 : qs.get ⟨i, hi⟩ + (qs.length - i) = c - 1 := by omega
        have hb := (hd1 (c - 1) (by omega)).2 ⟨i, hi, he2⟩
        simp [hb, hc1]
      · rw [hlen] at he
        have hc1 : 1 ≤ c := by omega
        have hcc : col = c - 1 := by omega
        simp [hcc, hc1]
  · intro c hc
    rw [hsar, Nat.testBit_div_two,
      @exists_get_snoc qs col
        (fun v i => (qs ++ [col]).length - i ≤ v ∧ v - ((qs ++ [col]).length - i) = c)]
    by_cases hc31 : c + 1 < 32
    · rw [Nat.testBit_or, Nat.testBit_two_pow]
      constructor
      · intro hb
        simp only [Bool.or_eq_true, decide_eq_true_eq] at hb
        rcases hb with hb | hb
        · obtain ⟨i, hi, hge, he⟩ := (hd2 (c + 1) hc31).1 hb
          refine Or.inl ⟨i, hi, ?_⟩
          rw [hlen]
          omega
        · refine Or.inr ?_
          rw [hlen]
          omega
      · rintro (⟨i, hi, hp⟩ | hp)
        · rw [hlen] at hp
          have hge : qs.length - i ≤ qs.get ⟨i, hi⟩ := by omega
          have he : qs.get ⟨i, hi⟩ - (qs.length - i) = c + 1 := by omega
          have hb := (hd2 (c + 1) hc31).2 ⟨i, hi, hge, he⟩
          simp [hb]
        · rw [hlen] at hp
          have hcc : col = c + 1 := by omega
          simp [hcc]
    · have hfalse : (d2 ||| 2 ^ col).testBit (c + 1) = false := by
        apply Nat.testBit_lt_two_pow
        calc d2 ||| 2 ^ col < 2 ^ 31 := hop2
        _ ≤ 2 ^ (c + 1) := Nat.pow_le_pow_right (by norm_num) (by omega)
      rw [hfalse]
      simp only [Bool.false_eq_true, false_iff]
      rintro (⟨i, hi, hp⟩ | hp)
      · rw [hlen] at hp
        have hvb : qs.get ⟨i, hi⟩ ≤ 30 := hent _ (List.get_mem qs i hi)
        omega
      · rw [hlen] at hp
        omega

/-- The bitmask state reached from `qs` by the mask updates of the source
satisfies the invariant. -/
theorem masksOf_snoc (qs : List Nat) (col : Nat) :
    masksOf (qs ++ [col]) =
      ((masksOf qs).1 ||| 2 ^ col,
        (((masksOf qs).2.1 ||| 2 ^ col) <<< 1) % U32,
        sar1 ((masksOf qs).2.2 ||| 2 ^ col)) := by
  simp [masksOf, List.foldl_append, Nat.shiftLeft_eq]

theorem masksOf_maskInv : ∀ qs : List Nat, (∀ x ∈ qs, x ≤ 30) →
    MaskInv qs (masksOf qs).1 (masksOf qs).2.1 (masksOf qs).2.2 := by
  intro qs
  induction qs using List.reverseRecOn with
  | nil =>
    intro _
    exact maskInv_nil
  | append_singleton qs col ih =>
    intro hent
    rw [masksOf_snoc]
    exact (ih fun x hx => hent x (List.mem_append.2 (Or.inl hx))).step
      (hent col (List.mem_append.2 (Or.inr (List.mem_singleton.2 rfl))))

/-! ## Availability agrees with the scan predicate -/

theorem avail_testBit {n : Nat} {qs : List Nat} {cols d1 d2 : Nat}
    (h : MaskInv qs cols d1 d2) {c : Nat} (hc : c < 32) :
    (jsMask n &&& jsNot (cols ||| d1 ||| d2)).testBit c
      = (decide (c < n % 32) && !(scanConflict qs qs.length c)) := by
  obtain ⟨hclt, hd1lt, hd2lt, hent, hcols, hd1, hd2⟩ := h
  have key : (cols ||| d1 ||| d2).testBit c = scanConflict qs qs.length c := by
    rw [Nat.testBit_or, Nat.testBit_or]
    cases hsc : scanConflict qs qs.length c with
    | true =>
      obtain ⟨i, hi, hd⟩ := (scanConflict_eq_true_iff qs qs.length c).1 hsc
      rcases hd with hd | hd
      · have hb := (hcols c hc).2 ⟨i, hi, hd⟩
        simp [hb]
      · rcases Nat.lt_or_ge (qs.get ⟨i, hi⟩) c with hlt | hge
        · have he : qs.get ⟨i, hi⟩ + (qs.length - i) = c := by omega
          have hb := (hd1 c hc).2 ⟨i, hi, he⟩
          simp [hb]
        · have h1 : qs.length - i ≤ qs.get ⟨i, hi⟩ := by omega
          have h2 : qs.get ⟨i, hi⟩ - (qs.length - i) = c := by omega
          have hb := (hd2 c hc).2 ⟨i, hi, h1, h2⟩
          simp [hb]
    | false =>
      have hscan := (scanConflict_eq_false_iff qs qs.length c).1 hsc
      have h1 : cols.testBit c = false := by
        cases hcb : cols.testBit c
        · rfl
        · obtain ⟨i, hi, he⟩ := (hcols c hc).1 hcb
          exact absurd he (hscan i hi).1
      have h2 : d1.testBit c = false := by
        cases hcb : d1.testBit c
        · rfl
        · obtain ⟨i, hi, he⟩ := (hd1 c hc).1 hcb
          exact absurd (show Int.natAbs ((qs.get ⟨i, hi⟩ : Int) - (c : Int))
            = qs.length - i by omega) (hscan i hi).2
      have h3 : d2.testBit c = false := by
        cases hcb : d2.testBit c
        · rfl
        · obtain ⟨i, hi, hge, he⟩ := (hd2 c hc).1 hcb
          exact absurd (show Int.natAbs ((qs.get ⟨i, hi⟩ : Int) - (c : Int))
            = qs.length - i by omega) (hscan i hi).2
      simp [h1, h2, h3]
  rw [Nat.testBit_and, jsMask_eq, Nat.testBit_two_pow_sub_one, jsNot,
    show (U32 - 1 : Nat) = 2 ^ 32 - 1 from rfl, Nat.testBit_xor,
    Nat.testBit_two_pow_sub_one, key]
  simp [hc]

/-! ## The bitmask loops as iterations over the set bits -/

theorem bmLoop_succ (rec : List Nat → Nat → Nat → Nat → List JsEvent)
    (n : Nat) (qs : List Nat) (cols d1 d2 lf available : Nat) :
    bmLoop rec n qs cols d1 d2 (lf + 1) available
      = if available = 0 then []
        else
          ⟨JsAction.place, some qs.length, some (Nat.log2 (lowBit available)),
              snapshot n (qs ++ [Nat.log2 (lowBit available)])⟩ ::
            (rec (qs ++ [Nat.log2 (lowBit available)]) (cols ||| lowBit available)
                (((d1 ||| lowBit available) <<< 1) % U32) (sar1 (d2 ||| lowBit available)) ++
              (⟨JsAction.remove, some qs.length, some (Nat.log2 (lowBit available)),
                  snapshot n (qs ++ [Nat.log2 (lowBit available)])⟩ ::
                bmLoop rec n qs cols d1 d2 lf (available &&& (available - 1)))) := rfl

theorem cbLoop_succ (rec : Nat → Nat → Nat → Nat → Nat)
    (row cols d1 d2 lf available : Nat) :
    cbLoop rec row cols d1 d2 (lf + 1) available
      = if available = 0 then 0
        else
          rec (row + 1) (cols ||| lowBit available)
              (((d1 ||| lowBit available) <<< 1) % U32) (sar1 (d2 ||| lowBit available)) +
            cbLoop rec row cols d1 d2 lf (available &&& (available - 1)) := rfl

theorem bmLoop_eq_concatMap (rec : List Nat → Nat → Nat → Nat → List JsEvent)
    (n : Nat) (qs : List Nat) (cols d1 d2 : Nat) : ∀ lf available, available < U32 →
    (bitList available).length ≤ lf →
    bmLoop rec n qs cols d1 d2 lf available
      = concatMap (fun col =>
          ⟨JsAction.place, some qs.length, some col, snapshot n (qs ++ [col])⟩ ::
            (rec (qs ++ [col]) (cols ||| 2 ^ col) (((d1 ||| 2 ^ col) <<< 1) % U32)
                (sar1 (d2 ||| 2 ^ col)) ++
              [⟨JsAction.remove, some qs.length, some col, snapshot n (qs ++ [col])⟩]))
          (bitList available) := by
  intro lf
  induction lf with
  | zero =>
    intro available hav hlen
    rw [List.length_eq_zero.1 (Nat.le_zero.1 hlen)]
    rfl
  | succ lf ih =>
    intro available hav hlen
    by_cases h0 : available = 0
    · subst h0
      rw [bitList_zero, bmLoop_succ, if_pos rfl]
      rfl
    · obtain ⟨k, a, hd⟩ := exists_pow_mul_odd (Nat.pos_of_ne_zero h0)
      have hbl := bitList_cons hav hd
      have hlow := lowBit_eq hav hd
      have hlog := lowBit_log2 hav hd
      rw [bmLoop_succ, if_neg h0, hlog, hlow, hbl]
      simp only [concatMap]
      rw [ih (available &&& (available - 1))
        (Nat.lt_of_le_of_lt Nat.and_le_left hav)
        (by rw [hbl] at hlen; simpa using Nat.le_of_succ_le_succ hlen)]
      simp

theorem cbLoop_eq_sumOver (rec : Nat → Nat → Nat → Nat → Nat)
    (row cols d1 d2 : Nat) : ∀ lf available, available < U32 →
    (bitList available).length ≤ lf →
    cbLoop rec row cols d1 d2 lf available
      = sumOver (fun col =>
          rec (row + 1) (cols ||| 2 ^ col) (((d1 ||| 2 ^ col) <<< 1) % U32)
            (sar1 (d2 ||| 2 ^ col)))
          (bitList available) := by
  intro lf
  induction lf with
  | zero =>
    intro available hav hlen
    rw [List.length_eq_zero.1 (Nat.le_zero.1 hlen)]
    rfl
  | succ lf ih =>
    intro available hav hlen
    by_cases h0 : available = 0
    · subst h0
      rw [bitList_zero, cbLoop_succ, if_pos rfl]
      rfl
    · obtain ⟨k, a, hd⟩ := exists_pow_mul_odd (Nat.pos_of_ne_zero h0)
      have hbl := bitList_cons hav hd
      have hlow := lowBit_eq hav hd
      rw [cbLoop_succ, if_neg h0, hlow, hbl]
      simp only [sumOver]
      rw [ih (available &&& (available - 1))
        (Nat.lt_of_le_of_lt Nat.and_le_left hav)
        (by rw [hbl] at hlen; simpa using Nat.le_of_succ_le_succ hlen)]

/-! ## Equivalence of the two strategies (sizes up to 31) -/

theorem btBitmask_succ (n f : Nat) (qs : List Nat) (cols d1 d2 : Nat) :
    btBitmask n (f + 1) qs cols d1 d2
      = if qs.length = n then [⟨JsAction.solution, none, none, snapshot n qs⟩]
        else bmLoop (btBitmask n f) n qs cols d1 d2 32
          (jsMask n &&& jsNot (cols ||| d1 ||| d2)) := rfl

theorem cbBitmask_succ (n f : Nat) (row cols d1 d2 : Nat) :
    cbBitmask n (f + 1) row cols d1 d2
      = if row = n then 1
        else cbLoop (cbBitmask n f) row cols d1 d2 32
          (jsMask n &&& jsNot (cols ||| d1 ||| d2)) := rfl

theorem avail_lt_U32 (n cols d1 d2 : Nat) :
    jsMask n &&& jsNot (cols ||| d1 ||| d2) < U32 :=
  Nat.lt_of_le_of_lt Nat.and_le_left (Nat.lt_trans (jsMask_lt n) (by norm_num [U32]))

theorem bitList_length_le (u : Nat) : (bitList u).length ≤ 32 := by
  unfold bitList
  calc ((List.range 32).filter u.testBit).length
      ≤ (List.range 32).length := List.length_filter_le _ _
  _ = 32 := by simp

theorem bitList_avail {n : Nat} (hn : n ≤ 31) {qs : List Nat} {cols d1 d2 : Nat}
    (h : MaskInv qs cols d1 d2) :
    bitList (jsMask n &&& jsNot (cols ||| d1 ||| d2))
      = (List.range n).filter (fun c => !scanConflict qs qs.length c) := by
  have hmod : n % 32 = n := Nat.mod_eq_of_lt (by omega)
  have e1 : bitList (jsMask n &&& jsNot (cols ||| d1 ||| d2))
      = (List.range 32).filter
          (fun c => decide (c < n) && !scanConflict qs qs.length c) := by
    unfold bitList
    apply List.filter_congr
    intro c hc
    rw [avail_testBit h (List.mem_range.1 hc), hmod]
  rw [e1, show (32 : Nat) = n + (32 - n) by omega, List.range_add, List.filter_append]
  have h2 : ((List.range (32 - n)).map (n + ·)).filter
      (fun c => decide (c < n) && !scanConflict qs qs.length c) = [] := by
    apply List.filter_eq_nil_iff.2
    intro a ha
    obtain ⟨x, _, rfl⟩ := List.mem_map.1 ha
    simp
  have h1 : (List.range n).filter (fun c => decide (c < n) && !scanConflict qs qs.length c)
      = (List.range n).filter (fun c => !scanConflict qs qs.length c) := by
    apply List.filter_congr
    intro c hc
    simp [List.mem_range.1 hc]
  rw [h1, h2, List.append_nil]

theorem btBitmask_eq_backtrackArray {n : Nat} (hn : n ≤ 31) :
    ∀ fuel (qs : List Nat) (cols d1 d2 : Nat),
    MaskInv qs cols d1 d2 → (∀ x ∈ qs, x < n) →
    btBitmask n fuel qs cols d1 d2 = backtrackArray n fuel qs := by
  intro fuel
  induction fuel with
  | zero =>
    intro qs cols d1 d2 _ _
    rfl
  | succ f ih =>
    intro qs cols d1 d2 hinv hent
    by_cases hlen : qs.length = n
    · rw [btBitmask_succ, if_pos hlen, backtrackArray_succ, if_pos hlen]
    · rw [btBitmask_succ, if_neg hlen, backtrackArray_succ, if_neg hlen]
      rw [bmLoop_eq_concatMap _ _ _ _ _ _ 32 _ (avail_lt_U32 n cols d1 d2)
        (bitList_length_le _)]
      rw [bitList_avail hn hinv, concatMap_guard]
      apply concatMap_congr
      intro col hcol
      rw [List.mem_filter] at hcol
      have hcoln : col < n := List.mem_range.1 hcol.1
      congr 1
      congr 1
      apply ih
      · exact hinv.step (by omega)
      · intro x hx
        rcases List.mem_append.1 hx with hx | hx
        · exact hent x hx
        · rw [List.mem_singleton.1 hx]
          exact hcoln

theorem cbBitmask_eq_countBacktrackArray {n : Nat} (hn : n ≤ 31) :
    ∀ fuel (qs : List Nat) (cols d1 d2 : Nat),
    MaskInv qs cols d1 d2 → (∀ x ∈ qs, x < n) →
    cbBitmask n fuel qs.length cols d1 d2 = countBacktrackArray n fuel qs := by
  intro fuel
  induction fuel with
  | zero =>
    intro qs cols d1 d2 _ _
    rfl
  | succ f ih =>
    intro qs cols d1 d2 hinv hent
    by_cases hlen : qs.length = n
    · rw [cbBitmask_succ, if_pos hlen]
      simp [countBacktrackArray, hlen]
    · rw [cbBitmask_succ, if_neg hlen]
      rw [show countBacktrackArray n (f + 1) qs
          = sumOver (fun col =>
              if scanConflict qs qs.length col then 0
              else countBacktrackArray n f (qs ++ [col])) (List.range n) from by
        simp [countBacktrackArray, hlen]]
      rw [cbLoop_eq_sumOver _ _ _ _ _ 32 _ (avail_lt_U32 n cols d1 d2)
        (bitList_length_le _)]
      rw [bitList_avail hn hinv, sumOver_guard]
      apply sumOver_congr
      intro col hcol
      rw [List.mem_filter] at hcol
      have hcoln : col < n := List.mem_range.1 hcol.1
      rw [show qs.length + 1 = (qs ++ [col]).length by simp]
      apply ih
      · exact hinv.step (by omega)
      · intro x hx
        rcases List.mem_append.1 hx with hx | hx
        · exact hent x hx
        · rw [List.mem_singleton.1 hx]
          exact hcoln

/-- The two generators produce identical traces for all sizes up to 31. -/
theorem solveNQueens_eq_of_le_31 {n : Nat} (hn : n ≤ 31) :
    solveNQueensArray n = solveNQueensBitmask n :=
  (btBitmask_eq_backtrackArray hn (n + 1) [] 0 0 0 maskInv_nil (by simp)).symm

/-- The two counters agree for all sizes up to 31. -/
theorem countSolutions_eq_of_le_31 {n : Nat} (hn : n ≤ 31) :
    countSolutionsArray n = countSolutionsBitmask n :=
  (cbBitmask_eq_countBacktrackArray hn (n + 1) [] 0 0 0 maskInv_nil (by simp)).symm

/-! ## Structure of the bitmask-strategy trace (all sizes) -/

theorem filter_guard_range {m : Nat} (q : Nat → Bool) (hm : m ≤ 32) :
    (List.range 32).filter (fun c => decide (c < m) && q c)
      = (List.range m).filter q := by
  rw [show (List.range 32) = List.range (m + (32 - m)) by rw [Nat.add_sub_cancel' hm],
    List.range_add, List.filter_append]
  have h2 : ((List.range (32 - m)).map (m + ·)).filter
      (fun c => decide (c < m) && q c) = [] := by
    apply List.filter_eq_nil_iff.2
    intro a ha
    obtain ⟨x, _, rfl⟩ := List.mem_map.1 ha
    simp
  have h1 : (List.range m).filter (fun c => decide (c < m) && q c)
      = (List.range m).filter q := by
    apply List.filter_congr
    intro c hc
    simp [List.mem_range.1 hc]
  rw [h1, h2, List.append_nil]

theorem bitList_avail_mod {n : Nat} {qs : List Nat} {cols d1 d2 : Nat}
    (h : MaskInv qs cols d1 d2) :
    bitList (jsMask n &&& jsNot (cols ||| d1 ||| d2))
      = (List.range (n % 32)).filter (fun c => !scanConflict qs qs.length c) := by
  have e1 : bitList (jsMask n &&& jsNot (cols ||| d1 ||| d2))
      = (List.range 32).filter
          (fun c => decide (c < n % 32) && !scanConflict qs qs.length c) := by
    unfold bitList
    apply List.filter_congr
    intro c hc
    rw [avail_testBit h (List.mem_range.1 hc)]
  rw [e1]
  exact filter_guard_range _ (Nat.le_of_lt (Nat.mod_lt _ (by norm_num)))

theorem btBitmask_events {n : Nat} : ∀ fuel qs cols d1 d2,
    MaskInv qs cols d1 d2 → NoAttack qs → (∀ x ∈ qs, x < n) →
    ∀ e ∈ btBitmask n fuel qs cols d1 d2,
      ∃ qs2, e.board = snapshot n qs2 ∧ NoAttack qs2 ∧ (∀ x ∈ qs2, x < n) ∧
        (e.action = JsAction.solution → qs2.length = n) := by
  intro fuel
  induction fuel with
  | zero =>
    intro qs cols d1 d2 _ _ _ e he
    simp [btBitmask] at he
  | succ f ih =>
    intro qs cols d1 d2 hinv hna hent e he
    by_cases hlen : qs.length = n
    · rw [btBitmask_succ, if_pos hlen, List.mem_singleton] at he
      subst he
      exact ⟨qs, rfl, hna, hent, fun _ => hlen⟩
    · rw [btBitmask_succ, if_neg hlen,
        bmLoop_eq_concatMap _ _ _ _ _ _ 32 _ (avail_lt_U32 n cols d1 d2)
          (bitList_length_le _),
        bitList_avail_mod hinv] at he
      obtain ⟨col, hcol, he⟩ := mem_concatMap.1 he
      rw [List.mem_filter] at hcol
      have hcoln : col < n % 32 := List.mem_range.1 hcol.1
      have hcol30 : col ≤ 30 := by omega
      have hcolltn : col < n := Nat.lt_of_lt_of_le hcoln (Nat.mod_le n 32)
      have hsc : scanConflict qs qs.length col = false := by
        have := hcol.2
        simpa using this
      have hna2 : NoAttack (qs ++ [col]) := hna.append hsc
      have hent2 : ∀ x ∈ qs ++ [col], x < n := by
        intro x hx
        rcases List.mem_append.1 hx with hx | hx
        · exact hent x hx
        · rw [List.mem_singleton.1 hx]
          exact hcolltn
      rcases List.mem_cons.1 he with he | he
      · subst he
        exact ⟨qs ++ [col], rfl, hna2, hent2, by intro h; cases h⟩
      rcases List.mem_append.1 he with he | he
      · exact ih (qs ++ [col]) _ _ _ (hinv.step hcol30) hna2 hent2 e he
      · rw [List.mem_singleton.1 he]
        exact ⟨qs ++ [col], rfl, hna2, hent2, by intro h; cases h⟩

/-- Solution events of the bitmask strategy are counted by the bitmask
counter (same fuel, same state). -/
theorem countP_solution_btBitmask {n : Nat} : ∀ fuel qs cols d1 d2,
    (btBitmask n fuel qs cols d1 d2).countP (fun e => e.action == JsAction.solution)
      = cbBitmask n fuel qs.length cols d1 d2 := by
  intro fuel
  induction fuel with
  | zero =>
    intro qs cols d1 d2
    simp [btBitmask, cbBitmask]
  | succ f ih =>
    intro qs cols d1 d2
    by_cases hlen : qs.length = n
    · rw [btBitmask_succ, if_pos hlen, cbBitmask_succ, if_pos hlen]
      simp [List.countP_cons]
    · rw [btBitmask_succ, if_neg hlen, cbBitmask_succ, if_neg hlen,
        bmLoop_eq_concatMap _ _ _ _ _ _ 32 _ (avail_lt_U32 n cols d1 d2)
          (bitList_length_le _),
        cbLoop_eq_sumOver _ _ _ _ _ 32 _ (avail_lt_U32 n cols d1 d2)
          (bitList_length_le _),
        countP_concatMap]
      apply sumOver_congr
      intro col _
      have hrec := ih (qs ++ [col]) (cols ||| 2 ^ col) (((d1 ||| 2 ^ col) <<< 1) % U32)
        (sar1 (d2 ||| 2 ^ col))
      simp only [List.length_append, List.length_singleton] at hrec
      simp [List.countP_cons, List.countP_append, hrec]

/-- `place` and `remove` events of the bitmask strategy are balanced: for
any predicate on the acted-on coordinate, the matching `place` events and
the matching `remove` events are equinumerous (same fuel, same state). -/
theorem countBal_btBitmask {n : Nat} (f : Option Nat → Option Nat → Bool) :
    ∀ fuel qs cols d1 d2,
    (btBitmask n fuel qs cols d1 d2).countP
        (fun e => e.action == JsAction.place && f e.row e.col)
      = (btBitmask n fuel qs cols d1 d2).countP
          (fun e => e.action == JsAction.remove && f e.row e.col) := by
  intro fuel
  induction fuel with
  | zero =>
    intro qs cols d1 d2
    simp [btBitmask]
  | succ f2 ih =>
    intro qs cols d1 d2
    by_cases hlen : qs.length = n
    · rw [btBitmask_succ, if_pos hlen]
      simp [List.countP_cons]
    · rw [btBitmask_succ, if_neg hlen,
        bmLoop_eq_concatMap _ _ _ _ _ _ 32 _ (avail_lt_U32 n cols d1 d2)
          (bitList_length_le _)]
      rw [countP_concatMap, countP_concatMap]
      apply sumOver_congr
      intro col _
      have hrec := ih (qs ++ [col]) (cols ||| 2 ^ col) (((d1 ||| 2 ^ col) <<< 1) % U32)
        (sar1 (d2 ||| 2 ^ col))
      simp [List.countP_cons, List.countP_append, hrec, Bool.and_eq_true, beq_iff_eq]

/-- Replaying the board mutations of any bitmask-strategy subtrace returns
the board to its starting snapshot. -/
theorem foldl_applyEvent_btBitmask {n : Nat} : ∀ fuel qs cols d1 d2, qs.length ≤ n →
    List.foldl applyEvent (snapshot n qs) (btBitmask n fuel qs cols d1 d2)
      = snapshot n qs := by
  intro fuel
  induction fuel with
  | zero =>
    intro qs cols d1 d2 _
    simp [btBitmask]
  | succ f ih =>
    intro qs cols d1 d2 hqs
    by_cases hlen : qs.length = n
    · rw [btBitmask_succ, if_pos hlen]
      simp [applyEvent]
    · have hlt : qs.length < n := Nat.lt_of_le_of_ne hqs hlen
      rw [btBitmask_succ, if_neg hlen,
        bmLoop_eq_concatMap _ _ _ _ _ _ 32 _ (avail_lt_U32 n cols d1 d2)
          (bitList_length_le _)]
      apply foldl_concatMap_fixed
      intro col _
      simp only [List.foldl_cons, List.foldl_append]
      rw [show applyEvent (snapshot n qs)
            ⟨JsAction.place, some qs.length, some col, snapshot n (qs ++ [col])⟩
          = snapshot n (qs ++ [col]) from by
        simp [applyEvent, snapshot_set_place hlt]]
      rw [ih (qs ++ [col]) _ _ _ (by simp; omega)]
      simp only [List.foldl_cons, List.foldl_nil]
      simp [applyEvent, snapshot_set_remove hlt]

/-- Solutions of the bitmask strategy extend the current prefix and are
emitted in strictly increasing lexicographic order (same fuel, same
state). -/
theorem solSeqs_btBitmask {n : Nat} : ∀ fuel qs cols d1 d2,
    List.Pairwise (List.Lex (· < ·)) (solSeqs (btBitmask n fuel qs cols d1 d2)) ∧
      ∀ s ∈ solSeqs (btBitmask n fuel qs cols d1 d2), ∃ t, s = qs ++ t := by
  intro fuel
  induction fuel with
  | zero =>
    intro qs cols d1 d2
    constructor
    · simp [btBitmask, solSeqs, solBoards]
    · intro s hs
      simp [btBitmask, solSeqs, solBoards] at hs
  | succ f ih =>
    intro qs cols d1 d2
    by_cases hlen : qs.length = n
    · constructor
      · rw [btBitmask_succ, if_pos hlen]
        simp [solSeqs, solBoards]
      · intro s hs
        rw [btBitmask_succ, if_pos hlen] at hs
        simp only [solSeqs, solBoards, List.filter_cons] at hs
        simp [colSeq_snapshot] at hs
        exact ⟨[], by simp [hs]⟩
    · have hdecomp : solSeqs (btBitmask n (f + 1) qs cols d1 d2)
          = concatMap (fun col =>
              solSeqs (btBitmask n f (qs ++ [col]) (cols ||| 2 ^ col)
                (((d1 ||| 2 ^ col) <<< 1) % U32) (sar1 (d2 ||| 2 ^ col))))
              (bitList (jsMask n &&& jsNot (cols ||| d1 ||| d2))) := by
        rw [btBitmask_succ, if_neg hlen,
          bmLoop_eq_concatMap _ _ _ _ _ _ 32 _ (avail_lt_U32 n cols d1 d2)
            (bitList_length_le _),
          solSeqs_concatMap]
        apply concatMap_congr
        intro col _
        simp [solSeqs, solBoards, List.filter_cons, List.filter_append]
      rw [hdecomp]
      constructor
      · apply pairwise_concatMap (List.Pairwise.filter _ (List.pairwise_lt_range 32))
        · intro col _
          exact (ih (qs ++ [col]) _ _ _).1
        · intro c1 c2 h1 h2 hlt x hx y hy
          obtain ⟨t1, rfl⟩ := (ih (qs ++ [c1]) _ _ _).2 x hx
          obtain ⟨t2, rfl⟩ := (ih (qs ++ [c2]) _ _ _).2 y hy
          simpa [List.append_assoc] using lex_append_cons hlt qs t1 t2
      · intro s hs
        obtain ⟨col, _, hsc⟩ := mem_concatMap.1 hs
        obtain ⟨t, rfl⟩ := (ih (qs ++ [col]) _ _ _).2 s hsc
        exact ⟨col :: t, by simp⟩

/-! ## From the non-attacking invariant to the stated board properties -/

theorem tSnapshot_nil (n : Nat) : tSnapshot n [] = List.replicate n (-1) := by
  simp [tSnapshot]

theorem tSnapshot_full {n : Nat} {qs : List Nat} (h : qs.length = n) :
    tSnapshot n qs = qs.map Int.ofNat := by
  simp [tSnapshot, h]

theorem boardOK_snapshot {n : Nat} {qs : List Nat} (h : NoAttack qs) :
    BoardOK (snapshot n qs) := by
  intro i j ci cj hij hgi hgj
  rw [snapshot_getD] at hgi hgj
  by_cases hi : i < qs.length
  · by_cases hj : j < qs.length
    · rw [dif_pos hi] at hgi
      rw [dif_pos hj] at hgj
      have hci : qs.get ⟨i, hi⟩ = ci := Option.some_injective _ hgi
      have hcj : qs.get ⟨j, hj⟩ = cj := Option.some_injective _ hgj
      constructor
      · rcases Nat.lt_or_ge i j with hlt | hge
        · rw [← hci, ← hcj]
          exact (h i j hi hj hlt).1
        · have hlt : j < i := by omega
          rw [← hci, ← hcj]
          exact (Ne.symm ((h j i hj hi hlt).1))
      · rw [← hci, ← hcj]
        exact h.diag i j hi hj hij
    · rw [dif_neg hj] at hgj
      cases hgj
  · rw [dif_neg hi] at hgi
    cases hgi

theorem boardOKT_tSnapshot {n : Nat} {qs : List Nat} (h : NoAttack qs) :
    BoardOKT (tSnapshot n qs) := by
  intro i j hij hilen hjlen hgi hgj
  by_cases hi : i < qs.length
  · by_cases hj : j < qs.length
    · rw [tSnapshot_getD i, dif_pos hi] at hgi ⊢
      rw [tSnapshot_getD j, dif_pos hj] at hgj ⊢
      simp only [Int.ofNat_eq_coe]
      constructor
      · rcases Nat.lt_or_ge i j with hlt | hge
        · have := (h i j hi hj hlt).1
          intro habs
          exact this (by omega)
        · have hlt : j < i := by omega
          have := (h j i hj hi hlt).1
          intro habs
          exact this (by omega)
      · exact h.diag i j hi hj hij
    · rw [tSnapshot_getD j, dif_neg hj] at hgj
      exact absurd rfl hgj
  · rw [tSnapshot_getD i, dif_neg hi] at hgi
    exact absurd rfl hgi

/-! ## The specified properties -/

set_option maxRecDepth 10000 in
set_option maxHeartbeats 4000000 in
/-- C1: for every N in {1,4,5,6,7,8}, `countSolutionsArray N` and
`countSolutionsBitmask N` agree and equal the known N-Queens counts
(1, 2, 10, 4, 40, 92), and for N = 2 and N = 3 both counters return 0. -/
theorem claim_C1 :
    (countSolutionsArray 1 = 1 ∧ countSolutionsBitmask 1 = 1) ∧
    (countSolutionsArray 2 = 0 ∧ countSolutionsBitmask 2 = 0) ∧
    (countSolutionsArray 3 = 0 ∧ countSolutionsBitmask 3 = 0) ∧
    (countSolutionsArray 4 = 2 ∧ countSolutionsBitmask 4 = 2) ∧
    (countSolutionsArray 5 = 10 ∧ countSolutionsBitmask 5 = 10) ∧
    (countSolutionsArray 6 = 4 ∧ countSolutionsBitmask 6 = 4) ∧
    (countSolutionsArray 7 = 40 ∧ countSolutionsBitmask 7 = 40) ∧
    (countSolutionsArray 8 = 92 ∧ countSolutionsBitmask 8 = 92) := by
  have h1 : countSolutionsArray 1 = 1 := by decide
  have h2 : countSolutionsArray 2 = 0 := by decide
  have h3 : countSolutionsArray 3 = 0 := by decide
  have h4 : countSolutionsArray 4 = 2 := by decide
  have h5 : countSolutionsArray 5 = 10 := by decide
  have h6 : countSolutionsArray 6 = 4 := by decide
  have h7 : countSolutionsArray 7 = 40 := by decide
  have h8 : countSolutionsArray 8 = 92 := by decide
  refine ⟨⟨h1, ?_⟩, ⟨h2, ?_⟩, ⟨h3, ?_⟩, ⟨h4, ?_⟩, ⟨h5, ?_⟩, ⟨h6, ?_⟩, ⟨h7, ?_⟩,
    ⟨h8, ?_⟩⟩
  · exact (countSolutions_eq_of_le_31 (show (1 : Nat) ≤ 31 by norm_num)).symm.trans h1
  · exact (countSolutions_eq_of_le_31 (show (2 : Nat) ≤ 31 by norm_num)).symm.trans h2
  · exact (countSolutions_eq_of_le_31 (show (3 : Nat) ≤ 31 by norm_num)).symm.trans h3
  · exact (countSolutions_eq_of_le_31 (show (4 : Nat) ≤ 31 by norm_num)).symm.trans h4
  · exact (countSolutions_eq_of_le_31 (show (5 : Nat) ≤ 31 by norm_num)).symm.trans h5
  · exact (countSolutions_eq_of_le_31 (show (6 : Nat) ≤ 31 by norm_num)).symm.trans h6
  · exact (countSolutions_eq_of_le_31 (show (7 : Nat) ≤ 31 by norm_num)).symm.trans h7
  · exact (countSolutions_eq_of_le_31 (show (8 : Nat) ≤ 31 by norm_num)).symm.trans h8

/-- C2 counterexample: the two generators do not produce identical event
sequences for every n ≥ 1.  At n = 32 the JavaScript mask `(1 << 32) - 1`
collapses to 0, so the bitmask generator yields no events at all, while
the array generator starts by placing a queen at (0, 0). -/
theorem claim_C2_counterexample :
    ¬ ∀ n : Nat, 1 ≤ n → solveNQueensArray n = solveNQueensBitmask n := by
  intro h
  have h32 := h 32 (by norm_num)
  have hb : solveNQueensBitmask 32 = [] := by decide
  exact solveNQueensArray_ne_nil (by norm_num) (h32.trans hb)

/-- C2 (amended): for every n with 1 ≤ n ≤ 31 — the full range in which
the JavaScript 32-bit mask `(1 << n) - 1` is exact — the event sequence of
`solveNQueensArray n` is identical, element by element, to the sequence of
`solveNQueensBitmask n`: same actions, same coordinates, same board
snapshots, same order. -/
theorem claim_C2_amended {n : Nat} (h1 : 1 ≤ n) (h31 : n ≤ 31) :
    solveNQueensArray n = solveNQueensBitmask n :=
  solveNQueens_eq_of_le_31 h31

theorem claim_C2_amended_witness :
    solveNQueensArray 4 = solveNQueensBitmask 4 :=
  claim_C2_amended (by norm_num) (by norm_num)

/-- C3: for every n ≥ 1 and every trace producer, the board carried by a
`solution` event is a permutation of 0..n-1 with no two entries on a
common diagonal. -/
theorem claim_C3 {n : Nat} (hn : 1 ≤ n) :
    (∀ e ∈ solveNQueensArray n, e.action = JsAction.solution →
      ValidSolutionBoard n e.board) ∧
    (∀ e ∈ solveNQueensBitmask n, e.action = JsAction.solution →
      ValidSolutionBoard n e.board) ∧
    (∀ s ∈ computeTraceSteps n, s.status = TStatus.solution →
      ValidSolutionBoardT n s.board) := by
  refine ⟨?_, ?_, ?_⟩
  · intro e he hsol
    obtain ⟨qs2, hb, hna, hent, hsl⟩ :=
      backtrackArray_events (n + 1) [] noAttack_nil (by simp) e he
    have hlen := hsl hsol
    refine ⟨qs2, ?_, hna.perm_range hlen hent, hna.diag⟩
    rw [hb, snapshot_full hlen]
  · intro e he hsol
    obtain ⟨qs2, hb, hna, hent, hsl⟩ :=
      btBitmask_events (n + 1) [] 0 0 0 maskInv_nil noAttack_nil (by simp) e he
    have hlen := hsl hsol
    refine ⟨qs2, ?_, hna.perm_range hlen hent, hna.diag⟩
    rw [hb, snapshot_full hlen]
  · intro st hst hsol
    obtain ⟨qs2, hb, hna, hent, hsl⟩ :=
      ctSolve_events (n + 1) [] noAttack_nil (by simp) st hst
    have hlen := hsl hsol
    refine ⟨qs2, ?_, hna.perm_range hlen hent, hna.diag⟩
    rw [hb, tSnapshot_full hlen]

theorem claim_C3_witness :
    ValidSolutionBoard 4 ([1, 3, 0, 2].map some) :=
  (claim_C3 (by norm_num)).1
    ⟨JsAction.solution, none, none, [1, 3, 0, 2].map some⟩ (by decide) rfl

/-- C4: for every n ≥ 1 and each strategy, the number of `solution`
events in the generator's full trace equals the value returned by that
strategy's counting function. -/
theorem claim_C4 {n : Nat} (hn : 1 ≤ n) :
    countSolutionEvents (solveNQueensArray n) = countSolutionsArray n ∧
    countSolutionEvents (solveNQueensBitmask n) = countSolutionsBitmask n :=
  ⟨countP_solution_backtrackArray (n + 1) [],
    countP_solution_btBitmask (n + 1) [] 0 0 0⟩

theorem claim_C4_witness :
    countSolutionEvents (solveNQueensArray 5) = countSolutionsArray 5 ∧
    countSolutionEvents (solveNQueensBitmask 5) = countSolutionsBitmask 5 :=
  claim_C4 (by norm_num)

/-- C5: for every n ≥ 1 and either generator, the solution boards, taken
in trace order and read as column sequences, are strictly increasing in
lexicographic order. -/
theorem claim_C5 {n : Nat} (hn : 1 ≤ n) :
    List.Pairwise (List.Lex (· < ·)) (solSeqs (solveNQueensArray n)) ∧
    List.Pairwise (List.Lex (· < ·)) (solSeqs (solveNQueensBitmask n)) :=
  ⟨(solSeqs_backtrackArray (n + 1) []).1, (solSeqs_btBitmask (n + 1) [] 0 0 0).1⟩

theorem claim_C5_witness :
    List.Pairwise (List.Lex (· < ·)) (solSeqs (solveNQueensArray 5)) ∧
    List.Pairwise (List.Lex (· < ·)) (solSeqs (solveNQueensBitmask 5)) :=
  claim_C5 (by norm_num)

/-- C6 counterexample: no core entry point rejects a non-positive size at
the boundary.  Called with n = 0, every entry point starts and completes
the (trivial) search and reports a result — one `solution` event in each
trace, and a count of 1 from each counter — instead of surfacing a
rejected call. -/
theorem claim_C6_counterexample :
    (solveNQueensArray 0).countP (fun e => e.action == JsAction.solution) = 1 ∧
    (solveNQueensBitmask 0).countP (fun e => e.action == JsAction.solution) = 1 ∧
    (computeTraceSteps 0).countP (fun s => s.status == TStatus.solution) = 1 ∧
    countSolutionsArray 0 = 1 ∧ countSolutionsBitmask 0 = 1 := by
  refine ⟨?_, ?_, ?_, ?_, ?_⟩ <;> decide

/-- C6 (amended): the core entry points perform no input validation.
Called with the non-positive size n = 0, each generator and
`computeTraceSteps` run the trivial search to completion and emit exactly
one `solution` event carrying an empty board, and both counters return 1;
size validation happens, if at all, in the UI layer. -/
theorem claim_C6_amended :
    solveNQueensArray 0 = [⟨JsAction.solution, none, none, []⟩] ∧
    solveNQueensBitmask 0 = [⟨JsAction.solution, none, none, []⟩] ∧
    computeTraceSteps 0 = [⟨[], none, TStatus.solution⟩] ∧
    countSolutionsArray 0 = 1 ∧ countSolutionsBitmask 0 = 1 := by
  refine ⟨?_, ?_, ?_, ?_, ?_⟩ <;> rfl

/-- C7: for every n ≥ 1 and every producer, placements and removals are
balanced 1:1 — at every coordinate and at every depth the number of
`place`/`placed` events equals the number of `remove`/`backtrack`
events — and replaying every board mutation of the full trace leaves the
board empty (zero queens placed at the end). -/
theorem claim_C7 {n : Nat} (hn : 1 ≤ n) :
    (∀ r c, countAt JsAction.place r c (solveNQueensArray n)
      = countAt JsAction.remove r c (solveNQueensArray n)) ∧
    (∀ r, countAtRow JsAction.place r (solveNQueensArray n)
      = countAtRow JsAction.remove r (solveNQueensArray n)) ∧
    (∀ r c, countAt JsAction.place r c (solveNQueensBitmask n)
      = countAt JsAction.remove r c (solveNQueensBitmask n)) ∧
    (∀ r, countAtRow JsAction.place r (solveNQueensBitmask n)
      = countAtRow JsAction.remove r (solveNQueensBitmask n)) ∧
    (∀ cr, countAtT TStatus.placed cr (computeTraceSteps n)
      = countAtT TStatus.backtrack cr (computeTraceSteps n)) ∧
    (∀ c, countAtColT TStatus.placed c (computeTraceSteps n)
      = countAtColT TStatus.backtrack c (computeTraceSteps n)) ∧
    List.foldl applyEvent (List.replicate n none) (solveNQueensArray n)
      = List.replicate n none ∧
    List.foldl applyEvent (List.replicate n none) (solveNQueensBitmask n)
      = List.replicate n none ∧
    List.foldl applyTStep (List.replicate n (-1)) (computeTraceSteps n)
      = List.replicate n (-1) := by
  refine ⟨?_, ?_, ?_, ?_, ?_, ?_, ?_, ?_, ?_⟩
  · intro r c
    exact countBal_backtrackArray (fun ro co => ro == some r && co == some c) (n + 1) []
  · intro r
    exact countBal_backtrackArray (fun ro _ => ro == some r) (n + 1) []
  · intro r c
    exact countBal_btBitmask (fun ro co => ro == some r && co == some c) (n + 1) [] 0 0 0
  · intro r
    exact countBal_btBitmask (fun ro _ => ro == some r) (n + 1) [] 0 0 0
  · intro cr
    exact countBal_ctSolve (fun cand => cand == some cr) (n + 1) []
  · intro c
    exact countBal_ctSolve
      (fun cand => match cand with
        | some cr => cr.1 == c
        | none => false) (n + 1) []
  · rw [← snapshot_nil]
    exact foldl_applyEvent_backtrackArray (n + 1) [] (by simp)
  · rw [← snapshot_nil]
    exact foldl_applyEvent_btBitmask (n + 1) [] 0 0 0 (by simp)
  · rw [← tSnapshot_nil]
    exact foldl_applyTStep_ctSolve (n + 1) [] (by simp)

theorem claim_C7_witness :
    countAt JsAction.place 0 0 (solveNQueensArray 2)
      = countAt JsAction.remove 0 0 (solveNQueensArray 2) ∧
    List.foldl applyEvent (List.replicate 2 none) (solveNQueensBitmask 2)
      = List.replicate 2 none := by
  obtain ⟨h1, h2, h3, h4, h5, h6, h7, h8, h9⟩ := claim_C7 (show 1 ≤ 2 by norm_num)
  exact ⟨h1 0 0, h8⟩

/-- C8: for every n ≥ 1 and every producer, the board snapshot carried by
every emitted event has pairwise non-attacking decided entries: no two
set entries share a column or a diagonal. -/
theorem claim_C8 {n : Nat} (hn : 1 ≤ n) :
    (∀ e ∈ solveNQueensArray n, BoardOK e.board) ∧
    (∀ e ∈ solveNQueensBitmask n, BoardOK e.board) ∧
    (∀ s ∈ computeTraceSteps n, BoardOKT s.board) := by
  refine ⟨?_, ?_, ?_⟩
  · intro e he
    obtain ⟨qs2, hb, hna, _, _⟩ :=
      backtrackArray_events (n + 1) [] noAttack_nil (by simp) e he
    rw [hb]
    exact boardOK_snapshot hna
  · intro e he
    obtain ⟨qs2, hb, hna, _, _⟩ :=
      btBitmask_events (n + 1) [] 0 0 0 maskInv_nil noAttack_nil (by simp) e he
    rw [hb]
    exact boardOK_snapshot hna
  · intro st hst
    obtain ⟨qs2, hb, hna, _, _⟩ :=
      ctSolve_events (n + 1) [] noAttack_nil (by simp) st hst
    rw [hb]
    exact boardOKT_tSnapshot hna

theorem claim_C8_witness :
    BoardOK (snapshot 4 [0, 2]) :=
  (@claim_C8 4 (by norm_num)).1
    ⟨JsAction.place, some 1, some 2, snapshot 4 [0, 2]⟩ (by decide)

/-- C9: for every board size n ≤ 30 and every partial board `qs` with
entries below n (in particular every board reachable by the search), bit
`c` (c < n) of the availability word
`((1 << n) - 1) & ~(columns | diag1 | diag2)` — with the three masks
obtained from `qs` by the source's per-row updates (`columns | pick`,
`(diag1 | pick) << 1`, `(diag2 | pick) >> 1`) — is set exactly when
placing a queen in column `c` at the current row passes the scan-form
validity predicate. -/
theorem claim_C9 {n : Nat} (hn : n ≤ 30) (qs : List Nat)
    (hent : ∀ x ∈ qs, x < n) {c : Nat} (hc : c < n) :
    (jsMask n &&& jsNot
        ((masksOf qs).1 ||| (masksOf qs).2.1 ||| (masksOf qs).2.2)).testBit c
      = !scanConflict qs qs.length c := by
  have hinv := masksOf_maskInv qs (fun x hx => by have := hent x hx; omega)
  rw [avail_testBit hinv (by omega)]
  simp [Nat.mod_eq_of_lt (show n < 32 by omega), hc]

theorem claim_C9_witness :
    (jsMask 4 &&& jsNot
        ((masksOf [1]).1 ||| (masksOf [1]).2.1 ||| (masksOf [1]).2.2)).testBit 3
      = !scanConflict [1] [1].length 3 :=
  claim_C9 (by norm_num) [1] (by decide) (by norm_num)

/-- C10: for n = 0, every core operation treats the empty board as one
trivial solution: each generator and `computeTraceSteps` produce exactly
one event — a `solution` event carrying an empty board — and both
counters return 1. -/
theorem claim_C10 :
    solveNQueensArray 0 = [⟨JsAction.solution, none, none, []⟩] ∧
    solveNQueensBitmask 0 = [⟨JsAction.solution, none, none, []⟩] ∧
    computeTraceSteps 0 = [⟨[], none, TStatus.solution⟩] ∧
    countSolutionsArray 0 = 1 ∧ countSolutionsBitmask 0 = 1 := by
  refine ⟨?_, ?_, ?_, ?_, ?_⟩ <;> rfl

end NQueensViz








